import Mathlib

set_option maxRecDepth 8000

/-!
Shallow embedding of the `ipv6thing` library (`src/ipv6thing/__init__.py`):
the address tokenizer and parser, the `Address` value type, the formatter
(zero-run compression and hextet padding), and the `Network` type with its
mask, containment, indexing and iteration logic.  Machine integers are
modelled as `Nat`/`Int` (Python integers are unbounded); fallible code
returns `Except String`.
-/

deriving instance DecidableEq for Except

namespace Ipv6

/-! ## Tokenizer (`_ADDR_TOKEN_PATTERN`)

The regex alternatives, tried in order at the current position:
`num` = `[0-9a-zA-Z]+` (greedy), `skip` = `::`, `sep` = `:`,
`prefixlen` = `/[0-9]+`, `unknown` = `.{1,}` (any run of non-newline
characters, used only for the error message).  If nothing matches
(i.e. at a newline) the scanning loop in `_parse_address` simply stops. -/

inductive AddrToken where
  | num (lexeme : List Char)
  | skip
  | sep
  | pfxlen (lexeme : List Char)
  | unknown (lexeme : List Char)
deriving DecidableEq

/-- The `unknown` alternative: `.{1,}` matches one or more non-newline
characters greedily; at a newline no alternative matches at all. -/
def unknownTok (l : List Char) : Option (AddrToken × List Char) :=
  let run := l.takeWhile (fun c => c ≠ '\n')
  if run.isEmpty then none
  else some (.unknown run, l.dropWhile (fun c => c ≠ '\n'))

/-- One step of the scanner: the token starting at the current position,
with the remaining input, following the regex alternation order. -/
def nextToken : List Char → Option (AddrToken × List Char)
  | [] => none
  | c :: cs =>
    if c.isAlphanum then
      some (.num ((c :: cs).takeWhile Char.isAlphanum),
            (c :: cs).dropWhile Char.isAlphanum)
    else if c = ':' then
      match cs with
      | ':' :: cs2 => some (.skip, cs2)
      | _ => some (.sep, cs)
    else if c = '/' then
      match cs.takeWhile Char.isDigit with
      | [] => unknownTok (c :: cs)
      | ds => some (.pfxlen ds, cs.dropWhile Char.isDigit)
    else
      unknownTok (c :: cs)

/-- Fuelled scanning loop; every token consumes at least one character, so
`length + 1` fuel always completes the scan. -/
def tokenizeFuel : Nat → List Char → List AddrToken
  | 0, _ => []
  | fuel + 1, l =>
    match nextToken l with
    | none => []
    | some (t, rest) => t :: tokenizeFuel fuel rest

def tokenize (l : List Char) : List AddrToken :=
  tokenizeFuel (l.length + 1) l

/-! ## Hexadecimal and decimal lexeme values -/

/-- Value of one hex digit, upper or lower case (Python `int(_, base=16)`
accepts both). -/
def hexDigVal (c : Char) : Option Nat :=
  if '0' ≤ c ∧ c ≤ '9' then some (c.toNat - 48)
  else if 'a' ≤ c ∧ c ≤ 'f' then some (c.toNat - 87)
  else if 'A' ≤ c ∧ c ≤ 'F' then some (c.toNat - 55)
  else none

/-- Python `int(lexeme, base=16)`; `none` models the uncaught `ValueError`
on a lexeme with a non-hex letter.  (Lexemes coming from the `num` token
are never empty.) -/
def hexVal (l : List Char) : Option Nat :=
  l.foldlM (fun acc c => (hexDigVal c).map (fun d => acc * 16 + d)) 0

/-- Python `int(lexeme, base=10)`; `prefixlen` lexemes are all digits. -/
def decVal (l : List Char) : Nat :=
  l.foldl (fun acc c => acc * 10 + (c.toNat - 48)) 0

/-! ## Address parser (`_parse_address`) -/

/-- The parser's loop state: hextet count, the elision flag, the two
accumulators, and the optional parsed prefix length. -/
structure ParseSt where
  cur_part : Nat
  did_skip : Bool
  lo : Nat
  hi : Nat
  plen : Option Nat
deriving DecidableEq

/-- The token-consuming loop of `_parse_address`.  A `num` lexeme longer
than 4 digits is rejected; before a `::` the value is ORed into `hi` at
lane `7 - cur_part` (Python raises `ValueError: negative shift count` when
`cur_part > 7`), after a `::` it is shifted into `lo` from the right. -/
def parseTokens : List AddrToken → ParseSt → Except String ParseSt
  | [], st => .ok st
  | t :: ts, st =>
    if st.plen.isSome then
      .error "nothing is allowed after the prefix length of the address"
    else
      match t with
      | .num lexeme =>
        if lexeme.length > 4 then .error "hextet must be 4 digits or less"
        else
          match hexVal lexeme with
          | none => .error "invalid literal for int() with base 16"
          | some val =>
            if st.did_skip then
              parseTokens ts
                { st with lo := st.lo <<< 16 ||| val, cur_part := st.cur_part + 1 }
            else if st.cur_part ≤ 7 then
              parseTokens ts
                { st with hi := st.hi ||| val <<< ((7 - st.cur_part) * 16),
                          cur_part := st.cur_part + 1 }
            else .error "negative shift count"
      | .skip =>
        if st.did_skip then .error "address can only have one '::'"
        else parseTokens ts { st with did_skip := true }
      | .sep => parseTokens ts st
      | .pfxlen lexeme => parseTokens ts { st with plen := some (decVal lexeme) }
      | .unknown _ => .error "address parser unable to parse"

/-- `_parse_address`: tokenize, fold, and return `(lo ||| hi, prefix length)`.
When a prefix is required and none was parsed, fail. -/
def parse_address (addr : String) (requirePfx : Bool) :
    Except String (Nat × Option Nat) := do
  let st ← parseTokens (tokenize addr.toList) ⟨0, false, 0, 0, none⟩
  if requirePfx ∧ st.plen = none then .error "no prefix length specified"
  else .ok (st.lo ||| st.hi, st.plen)

/-! ## Address -/

def MAX_ADDR : Nat := 2 ^ 128 - 1

/-- `Address.__init__` from an `int`: range check `MIN ≤ v ≤ MAX`. -/
def Address.fromInt (v : Int) : Except String Nat :=
  if 0 ≤ v ∧ v ≤ (MAX_ADDR : Int) then .ok v.toNat
  else .error "address out of range"

/-- `Address.__init__` from a `str`: parse with no prefix allowed, then the
same range check (the parsed value is a natural, so only the upper bound
can fail). -/
def Address.fromString (s : String) : Except String Nat := do
  let (v, _) ← parse_address s false
  if v ≤ MAX_ADDR then .ok v else .error "address out of range"

/-- `Address.__add__`: a new `Address` built from `value + delta`. -/
def Address.addInt (a : Nat) (d : Int) : Except String Nat :=
  Address.fromInt ((a : Int) + d)

/-- `Address.__sub__`: a new `Address` built from `value - delta`. -/
def Address.subInt (a : Nat) (d : Int) : Except String Nat :=
  Address.fromInt ((a : Int) - d)

/-! ## Formatter (`Address.__format__`) -/

inductive CompressMode where
  | COMPRESS
  | EXPAND
deriving DecidableEq

inductive PadMode where
  | PAD
  | TRIM
deriving DecidableEq

/-- The 8 hextets of an address, most significant first:
`(addr >> ofs) & 0xFFFF for ofs in range(7*16, -1, -16)`. -/
def hextetsOf (a : Nat) : List Nat :=
  (List.range 8).map (fun i => (a >>> ((7 - i) * 16)) &&& 0xFFFF)

/-- Hextet `i` of address `a` (0 = most significant). -/
def hextet (a i : Nat) : Nat := (a >>> ((7 - i) * 16)) &&& 0xFFFF

def hexChr (d : Nat) : Char :=
  if d < 10 then Char.ofNat (48 + d) else Char.ofNat (87 + d)

/-- Little-endian base-16 digits of `n` (empty for 0); the fuel argument
only needs to cover the digit count, `n` itself is always enough. -/
def hexRev : Nat → Nat → List Nat
  | 0, _ => []
  | fuel + 1, n => if n = 0 then [] else n % 16 :: hexRev fuel (n / 16)

/-- Python `f'{n:x}'`: minimal lower-case hex rendering. -/
def hexTrimChars (n : Nat) : List Char :=
  if n = 0 then ['0'] else ((hexRev n n).reverse).map hexChr

/-- Python `f'{n:04x}'`: zero-padded to at least 4 characters. -/
def hexPadChars (n : Nat) : List Char :=
  let s := hexTrimChars n
  List.replicate (4 - s.length) '0' ++ s

def hexOf : PadMode → Nat → List Char
  | .PAD, n => hexPadChars n
  | .TRIM, n => hexTrimChars n

/-- Scan state of the zero-run search in `__format__`. -/
structure ScanSt where
  longest : Option (Int × Int)
  longest_len : Int
  cur_start : Int
  cur_end : Int
  prev : Int
  first : Bool
deriving DecidableEq

/-- The zero-run scan, one iteration per `(idx, hextet)` of
`enumerate(itertools.chain(hextets, [-1]))`. -/
def scanLoop (h0 : Int) : Int → List Int → ScanSt → ScanSt
  | _, [], st => st
  | idx, v :: vs, st =>
    if v = st.prev ∨ (st.first ∧ v = h0) then
      scanLoop h0 (idx + 1) vs { st with cur_end := idx, prev := v }
    else
      let len := st.cur_end - st.cur_start
      let st1 :=
        if st.prev = 0 ∧ len > st.longest_len then
          { st with longest := some (st.cur_start, st.cur_end), longest_len := len }
        else st
      scanLoop h0 (idx + 1) vs
        { st1 with cur_start := idx, first := false, prev := v }

/-- The compress section chosen by the scan (`compress_section` stays
`(-1, -1)` when no zero run was recorded).  `h0` is `hextets[0]` (the
hextet list always has 8 entries here). -/
def compressSection (hx : List Nat) : Int × Int :=
  let vals : List Int := hx.map Int.ofNat ++ [-1]
  let h0 : Int := Int.ofNat (hx.headD 0)
  let fin := scanLoop h0 0 vals ⟨none, -99, 0, 0, -1, true⟩
  match fin.longest with
  | some se => se
  | none => (-1, -1)

/-- The rendering loop of `__format__`: state is the output so far and the
`hextet_before` flag. -/
def renderLoop (pad : PadMode) (cs : Int × Int) :
    Int → List Nat → List Char × Bool → List Char × Bool
  | _, [], st => st
  | idx, h :: hs, (ret, hb) =>
    if cs.1 ≤ idx ∧ idx ≤ cs.2 then
      renderLoop pad cs (idx + 1) hs
        ((if cs.1 = idx then ret ++ [':', ':'] else ret), false)
    else
      let r1 := if hb then ret ++ [':'] else ret
      renderLoop pad cs (idx + 1) hs (r1 ++ hexOf pad h, true)

/-- `Address.__format__` after the format spec has been folded into its
`(compress, pad)` mode pair. -/
def formatAddr (a : Nat) (cm : CompressMode) (pm : PadMode) : String :=
  let hx := hextetsOf a
  let cs : Int × Int :=
    match cm with
    | .COMPRESS => compressSection hx
    | .EXPAND => (-1, -1)
  ((renderLoop pm cs 0 hx ([], false)).1).asString

/-- The `'s'` (short) format: compress zeros, trim hextets — the default
mode and the one `str()` uses. -/
def formatShort (a : Nat) : String := formatAddr a .COMPRESS .TRIM

/-! ## Network -/

/-- `Network.__slots__`: the base `Address` and the stored prefix length.
The constructor performs no range check at all on `prefix_len`, so the
field is a raw integer. -/
structure Network where
  _addr : Nat
  _prefix_len : Int
deriving DecidableEq

/-- `Network(addr_str)` (single-string form): parse with the prefix
required, then build the base `Address` from the parsed integer. -/
def Network.ofString (s : String) : Except String Network := do
  let (v, p?) ← parse_address s true
  match p? with
  | some p =>
    if v ≤ MAX_ADDR then .ok ⟨v, (p : Int)⟩ else .error "address out of range"
  | none => .error "no prefix length specified"

/-- `Network(addr_int, prefix_len)`: `Address(addr)` range-checks the
address; the prefix length is stored as given. -/
def Network.ofIntPair (a : Int) (p : Int) : Except String Network := do
  let v ← Address.fromInt a
  .ok ⟨v, p⟩

/-- `Network.prefix_mask`: `((1 << 128) - 1) ^ ((1 << prefix_len) - 1)`
(a negative stored prefix would raise on the shift). -/
def Network.prefix_mask (n : Network) : Except String Nat :=
  if 0 ≤ n._prefix_len then
    .ok ((2 ^ 128 - 1) ^^^ (2 ^ n._prefix_len.toNat - 1))
  else .error "negative shift count"

/-- `Network._max_idx`: `(1 << (128 - prefix_len)) - 1` (a stored prefix
above 128 would raise on the shift). -/
def Network._max_idx (n : Network) : Except String Int :=
  if n._prefix_len ≤ 128 then
    .ok ((2 : Int) ^ ((128 - n._prefix_len).toNat) - 1)
  else .error "negative shift count"

/-- `Network.__getitem__` with an integer key: `if 0 < k < self._max_idx:
raise IndexError(); return self.base_address + k`.  Python's chained
comparison only evaluates `_max_idx` when `0 < k` holds. -/
def Network.getItem (n : Network) (k : Int) : Except String Nat :=
  if 0 < k then do
    let m ← n._max_idx
    if k < m then .error "IndexError"
    else Address.addInt n._addr k
  else Address.addInt n._addr k

/-- `Network.__contains__` on an `Address`:
`(item & self.prefix_mask) == self.base_address`. -/
def Network.containsAddr (n : Network) (a : Nat) : Except String Bool := do
  let m ← n.prefix_mask
  .ok (decide ((a &&& m) = n._addr))

/-- `Network.num_addresses`: `1 << (128 - prefix_len)`. -/
def Network.num_addresses (n : Network) : Except String Int :=
  if n._prefix_len ≤ 128 then
    .ok ((2 : Int) ^ ((128 - n._prefix_len).toNat))
  else .error "negative shift count"

/-! ## Network iterator (`_NetworkIterator`, `_NetworkIterable`) -/

/-- `_NetworkIterator` state (the `_start` slot is never written by the
constructor, only `_cur`). -/
structure NetIter where
  _cur : Int
  _stop : Int
  _step : Int
deriving DecidableEq

/-- `Network.__iter__`:
`_NetworkIterator(int(base), int(base) + max_idx + 1, 1)`. -/
def Network.iterNet (n : Network) : Except String NetIter := do
  let m ← n._max_idx
  .ok ⟨(n._addr : Int), (n._addr : Int) + m + 1, 1⟩

/-- Result of one `__next__` call: `StopIteration`, a yielded address, or
an uncaught error from the `Address` constructor. -/
inductive IterNext where
  | stopIter
  | yield (a : Nat) (s : NetIter)
  | err (e : String)
deriving DecidableEq

/-- `_NetworkIterator.__next__`: stop when `cur >= stop` (regardless of
the step's sign!), otherwise advance by `step` and return `Address(cur)`. -/
def NetIter.next (s : NetIter) : IterNext :=
  if s._stop ≤ s._cur then .stopIter
  else
    match Address.fromInt s._cur with
    | .ok a => .yield a ⟨s._cur + s._step, s._stop, s._step⟩
    | .error e => .err e

/-- Outcome of draining an iterator with the given fuel. -/
inductive IterRun where
  | done (out : List Nat)
  | failed (out : List Nat) (e : String)
  | more (out : List Nat) (s : NetIter)
deriving DecidableEq

/-- Drive `__next__` until `StopIteration`, an error, or fuel runs out,
collecting the yielded address values. -/
def NetIter.run : Nat → NetIter → IterRun
  | 0, s => .more [] s
  | fuel + 1, s =>
    match s.next with
    | .stopIter => .done []
    | .err e => .failed [] e
    | .yield a s2 =>
      match NetIter.run fuel s2 with
      | .done out => .done (a :: out)
      | .failed out e => .failed (a :: out) e
      | .more out s3 => .more (a :: out) s3

/-- One component of a Python slice as `_NetworkIterable.__iter__` accepts
it: an `int` offset, an `Address`, or `None`. -/
inductive SliceVal where
  | int (i : Int)
  | addr (a : Nat)
  | none
deriving DecidableEq

/-- `_NetworkIterable.__iter__`: resolve start/stop/step (int offsets are
relative to the base address, `None` defaults to the network bounds and
step 1), reject step 0, and for a negative step swap
`(start, stop) → (stop - 1, start - 1)`. -/
def sliceIter (net : Network) (s0 s1 s2 : SliceVal) : Except String NetIter := do
  let start : Int ←
    match s0 with
    | .int i => pure (i + (net._addr : Int))
    | .addr a => pure ((a : Nat) : Int)
    | .none => pure ((net._addr : Nat) : Int)
  let stop : Int ←
    match s1 with
    | .int i => pure (i + (net._addr : Int))
    | .addr a => pure ((a : Nat) : Int)
    | .none => do
      let m ← net._max_idx
      pure ((net._addr : Int) + m + 1)
  let step : Int ←
    match s2 with
    | .int i => pure i
    | .addr _ => .error "TypeError"
    | .none => pure 1
  if step = 0 then .error "step cannot be 0"
  else if step < 0 then .ok ⟨stop - 1, start - 1, step⟩
  else .ok ⟨start, stop, step⟩




/-! ## Helper functions for stating the formatter/parser lemmas -/

/-- `':' :: l` for each element, concatenated. -/
def withSeps : List (List Char) → List Char
  | [] => []
  | l :: ls => ':' :: l ++ withSeps ls

/-- Character runs joined by single `':'` separators. -/
def charJoin : List (List Char) → List Char
  | [] => []
  | l :: ls => l ++ withSeps ls

/-- `.sep :: .num l` for each element, concatenated. -/
def withSepToks : List (List Char) → List AddrToken
  | [] => []
  | l :: ls => .sep :: .num l :: withSepToks ls

/-- `num` tokens joined by single `sep` tokens. -/
def joinToks : List (List Char) → List AddrToken
  | [] => []
  | l :: ls => .num l :: withSepToks ls

/-- The value the parser accumulates into `hi` for hextets `vs` placed at
lanes `7 - c`, `7 - (c+1)`, ... -/
def packFrom : Nat → List Nat → Nat
  | _, [] => 0
  | c, v :: vs => v <<< ((7 - c) * 16) ||| packFrom (c + 1) vs

/-- The value the parser accumulates into `lo` after a `::`. -/
def loAcc : Nat → List Nat → Nat
  | lo, [] => lo
  | lo, v :: vs => loAcc (lo <<< 16 ||| v) vs

/-- Value of a big-endian base-16 digit list. -/
def bigEndVal (ds : List Nat) : Nat :=
  ds.foldl (fun acc d => acc * 16 + d) 0

/-- Value of a big-endian base-65536 hextet list. -/
def hexSum (hs : List Nat) : Nat :=
  hs.foldl (fun acc h => acc * 65536 + h) 0

/-- The hextet list viewed at integer index `j`, with `-1` outside `[0,
length)` — this is the value the zero-run scan sees at position `j`
(the sentinel included). -/
def hxVal (hx : List Nat) (j : Int) : Int :=
  if 0 ≤ j ∧ j < hx.length then ((hx.getD j.toNat 0 : Nat) : Int) else -1


/-- Elements are nonempty, all-alphanumeric character runs. -/
def GoodRuns (ls : List (List Char)) : Prop :=
  ∀ l ∈ ls, l ≠ [] ∧ ∀ c ∈ l, c.isAlphanum = true

/-- The first character (if any) is not alphanumeric. -/
def HeadNotAlnum (r : List Char) : Prop :=
  ∀ c, r.head? = some c → c.isAlphanum = false


/-- One iteration of the render loop, as a state transformer. -/
def renderStep (pad : PadMode) (cs : Int × Int) (idx : Int) (h : Nat)
    (st : List Char × Bool) : List Char × Bool :=
  if cs.1 ≤ idx ∧ idx ≤ cs.2 then
    ((if cs.1 = idx then st.1 ++ [':', ':'] else st.1), false)
  else
    ((if st.2 then st.1 ++ [':'] else st.1) ++ hexOf pad h, true)

/-- Join runs, preceded by a separator when a hextet was already emitted. -/
def sepPre (hb : Bool) (ls : List (List Char)) : List Char :=
  if hb then withSeps ls else charJoin ls


/-- One iteration of the zero-run scan, as a state transformer. -/
def scanStepFn (h0 : Int) (idx : Int) (v : Int) (st : ScanSt) : ScanSt :=
  if v = st.prev ∨ (st.first ∧ v = h0) then
    { st with cur_end := idx, prev := v }
  else
    let len := st.cur_end - st.cur_start
    let st1 :=
      if st.prev = 0 ∧ len > st.longest_len then
        { st with longest := some (st.cur_start, st.cur_end), longest_len := len }
      else st
    { st1 with cur_start := idx, first := false, prev := v }

/-- Invariant on the recorded best zero run: when its bounds are ordered it
is a genuine zero run lying before the scan position, singleton only at
index 0; otherwise it is inert (renders nothing). -/
def LongestInv (W : Int → Int) (idx : Int) : Option (Int × Int) → Int → Prop
  | none, ll => ll = -99
  | some (a, b), ll => ll = b - a ∧ 0 ≤ a ∧ b ≤ idx - 1 ∧
      (a ≤ b → (∀ j : Int, a ≤ j → j ≤ b → W j = 0) ∧ (a = 0 ∨ a < b))

/-- Invariant of the zero-run scan after processing positions `0..idx-1` of
the value stream `W`. -/
def ScanInv (W : Int → Int) (h0 : Int) (idx : Int) (st : ScanSt) : Prop :=
  1 ≤ idx ∧
  st.prev = W (idx - 1) ∧
  0 ≤ st.cur_start ∧ st.cur_start ≤ idx - 1 ∧
  st.cur_end ≤ idx - 1 ∧
  (st.cur_start ≤ st.cur_end →
    st.cur_end = idx - 1 ∧ (st.cur_start = 0 ∨ st.cur_start < st.cur_end)) ∧
  (∀ j : Int, st.cur_start ≤ j → j ≤ idx - 1 → W j = st.prev) ∧
  (st.first = true → st.cur_start = 0 ∧ h0 = W 0) ∧
  LongestInv W idx st.longest st.longest_len

/-! ## Iteration helper lemmas -/

theorem run_succ (fuel : Nat) (s : NetIter) :
    NetIter.run (fuel + 1) s =
      match s.next with
      | .stopIter => .done []
      | .err e => .failed [] e
      | .yield a s2 =>
        match NetIter.run fuel s2 with
        | .done out => .done (a :: out)
        | .failed out e => .failed (a :: out) e
        | .more out s3 => .more (a :: out) s3 := rfl

theorem run_succ_yield (fuel : Nat) (s : NetIter) (a : Nat) (s2 : NetIter)
    (h : s.next = .yield a s2) :
    NetIter.run (fuel + 1) s =
      match NetIter.run fuel s2 with
      | .done out => .done (a :: out)
      | .failed out e => .failed (a :: out) e
      | .more out s3 => .more (a :: out) s3 := by
  rw [run_succ]
  rw [h]

theorem max_addr_int : (MAX_ADDR : Int) = 2 ^ 128 - 1 := by
  rw [MAX_ADDR, Nat.cast_sub Nat.one_le_two_pow]
  push_cast

theorem fromInt_ok (v : Int) (h0 : 0 ≤ v) (h1 : v ≤ (MAX_ADDR : Int)) :
    Address.fromInt v = .ok v.toNat := by
  rw [Address.fromInt, if_pos ⟨h0, h1⟩]

/-- Draining a step-1 iterator whose window fits in the address range
yields exactly the `n` consecutive addresses of the window. -/
theorem run_step_one (n : Nat) : ∀ cur : Int, 0 ≤ cur → cur + n ≤ 2 ^ 128 →
    NetIter.run (n + 1) ⟨cur, cur + n, 1⟩ =
      .done ((List.range n).map (fun i => cur.toNat + i)) := by
  induction n with
  | zero =>
    intro cur h0 hle
    simp [NetIter.run, NetIter.next]
  | succ n ih =>
    intro cur h0 hle
    have hstop : cur + ((n + 1 : Nat) : Int) = (cur + 1) + ((n : Nat) : Int) := by
      push_cast
      ring
    push_cast at hle
    rw [hstop]
    have hok : Address.fromInt cur = .ok cur.toNat :=
      fromInt_ok cur h0 (by rw [max_addr_int]; omega)
    have hnext : NetIter.next ⟨cur, (cur + 1) + ((n : Nat) : Int), 1⟩ =
        .yield cur.toNat ⟨cur + 1, (cur + 1) + ((n : Nat) : Int), 1⟩ := by
      simp only [NetIter.next, hok]
      rw [if_neg (by omega)]
    have ih2 := ih (cur + 1) (by omega) (by push_cast; omega)
    rw [run_succ_yield _ _ _ _ hnext, ih2]
    have htail : (List.range n).map (fun i => (cur + 1).toNat + i)
        = (List.range n).map (fun i => cur.toNat + (i + 1)) := by
      apply List.map_congr_left
      intro i _
      omega
    rw [List.range_succ_eq_map, List.map_cons, List.map_map, htail]
    simp



/-! ## Hex rendering round-trip lemmas -/

theorem hexDigVal_hexChr : ∀ d : Nat, d < 16 → hexDigVal (hexChr d) = some d := by
  decide

theorem hexChr_alnum : ∀ d : Nat, d < 16 → (hexChr d).isAlphanum = true := by
  decide

theorem hexRev_all_lt : ∀ (f n : Nat), ∀ d ∈ hexRev f n, d < 16 := by
  intro f
  induction f with
  | zero => intro n d hd; simp [hexRev] at hd
  | succ f ih =>
    intro n d hd
    rw [hexRev] at hd
    split at hd
    · simp at hd
    · rcases List.mem_cons.mp hd with h | h
      · subst h
        exact Nat.mod_lt _ (by norm_num)
      · exact ih _ _ h

theorem bigEndVal_append_single (xs : List Nat) (d : Nat) :
    bigEndVal (xs ++ [d]) = bigEndVal xs * 16 + d := by
  simp [bigEndVal, List.foldl_append]

theorem bigEndVal_rev_hexRev : ∀ (f n : Nat), n < 16 ^ f →
    bigEndVal ((hexRev f n).reverse) = n := by
  intro f
  induction f with
  | zero =>
    intro n hn
    interval_cases n
    simp [hexRev, bigEndVal]
  | succ f ih =>
    intro n hn
    rw [hexRev]
    by_cases h0 : n = 0
    · simp [h0, bigEndVal]
    · rw [if_neg h0]
      have hdiv : n / 16 < 16 ^ f := by
        rw [Nat.div_lt_iff_lt_mul (by norm_num)]
        calc n < 16 ^ (f + 1) := hn
        _ = 16 ^ f * 16 := by ring
      simp only [List.reverse_cons]
      rw [bigEndVal_append_single, ih _ hdiv]
      omega

theorem hexRev_len_le : ∀ (f n k : Nat), n < 16 ^ k → (hexRev f n).length ≤ k := by
  intro f
  induction f with
  | zero => intro n k _; simp [hexRev]
  | succ f ih =>
    intro n k hn
    rw [hexRev]
    by_cases h0 : n = 0
    · simp [h0]
    · rw [if_neg h0]
      have hk : k ≠ 0 := by
        rintro rfl
        simp at hn
        omega
      obtain ⟨k', rfl⟩ : ∃ k', k = k' + 1 := ⟨k - 1, by omega⟩
      have hdiv : n / 16 < 16 ^ k' := by
        rw [Nat.div_lt_iff_lt_mul (by norm_num)]
        calc n < 16 ^ (k' + 1) := hn
        _ = 16 ^ k' * 16 := by ring
      have := ih (n / 16) k' hdiv
      simp only [List.length_cons]
      omega

theorem hexVal_map_hexChr : ∀ (ds : List Nat) (acc : Nat), (∀ d ∈ ds, d < 16) →
    List.foldlM (fun acc c => (hexDigVal c).map (fun d => acc * 16 + d)) acc
        (ds.map hexChr)
      = some (List.foldl (fun a d => a * 16 + d) acc ds) := by
  intro ds
  induction ds with
  | nil => intro acc _; rfl
  | cons d ds ih =>
    intro acc hlt
    have hd : d < 16 := hlt d (List.mem_cons_self d ds)
    simp only [List.map_cons, List.foldlM_cons, hexDigVal_hexChr d hd, Option.map_some,
      Option.bind_some, List.foldl_cons]
    exact ih _ (fun x hx => hlt x (List.mem_cons_of_mem _ hx))

theorem hexVal_hexTrim (n : Nat) : hexVal (hexTrimChars n) = some n := by
  rw [hexTrimChars]
  by_cases h0 : n = 0
  · subst h0
    decide
  · rw [if_neg h0, hexVal]
    have hall : ∀ d ∈ (hexRev n n).reverse, d < 16 := by
      intro d hd
      exact hexRev_all_lt n n d (List.mem_reverse.mp hd)
    rw [hexVal_map_hexChr _ 0 hall]
    congr 1
    show bigEndVal ((hexRev n n).reverse) = n
    exact bigEndVal_rev_hexRev n n (Nat.lt_pow_self (by norm_num) n)

theorem hexTrim_len (n : Nat) (hn : n < 65536) : (hexTrimChars n).length ≤ 4 := by
  rw [hexTrimChars]
  by_cases h0 : n = 0
  · simp [h0]
  · rw [if_neg h0]
    simp only [List.length_map, List.length_reverse]
    exact hexRev_len_le n n 4 (by omega)

theorem hexTrim_ne_nil (n : Nat) : hexTrimChars n ≠ [] := by
  rw [hexTrimChars]
  by_cases h0 : n = 0
  · simp [h0]
  · rw [if_neg h0]
    obtain ⟨m, rfl⟩ : ∃ m, n = m + 1 := ⟨n - 1, by omega⟩
    simp [hexRev, h0]

theorem hexTrim_alnum (n : Nat) : ∀ c ∈ hexTrimChars n, c.isAlphanum = true := by
  rw [hexTrimChars]
  by_cases h0 : n = 0
  · simp only [h0, if_pos rfl]
    decide
  · rw [if_neg h0]
    intro c hc
    obtain ⟨d, hd, rfl⟩ := List.mem_map.mp hc
    exact hexChr_alnum d (hexRev_all_lt _ _ _ (List.mem_reverse.mp hd))


/-! ## Tokenizer lemmas -/

theorem tokenizeFuel_nil : ∀ f, tokenizeFuel f [] = [] := by
  intro f
  cases f <;> rfl

theorem takeWhile_append_all (p : Char → Bool) :
    ∀ (h r : List Char), (∀ c ∈ h, p c = true) →
      (∀ c, r.head? = some c → p c = false) →
      (h ++ r).takeWhile p = h ∧ (h ++ r).dropWhile p = r := by
  intro h
  induction h with
  | nil =>
    intro r _ hr
    cases r with
    | nil => exact ⟨rfl, rfl⟩
    | cons c r' =>
      have hc := hr c rfl
      rw [List.nil_append]
      constructor
      · rw [List.takeWhile_cons, hc]
        simp
      · rw [List.dropWhile_cons, hc]
        simp
  | cons c h ih =>
    intro r hh hr
    have hc : p c = true := hh c (List.mem_cons_self _ _)
    have hih := ih r (fun x hx => hh x (List.mem_cons_of_mem _ hx)) hr
    rw [List.cons_append]
    constructor
    · rw [List.takeWhile_cons, hc, hih.1]
      simp
    · rw [List.dropWhile_cons, hc, hih.2]
      simp

theorem tok_num (h r : List Char) (f : Nat) (hne : h ≠ [])
    (hal : ∀ c ∈ h, c.isAlphanum = true)
    (hr : ∀ c, r.head? = some c → c.isAlphanum = false) :
    tokenizeFuel (f + 1) (h ++ r) = .num h :: tokenizeFuel f r := by
  obtain ⟨c, h', rfl⟩ : ∃ c h', h = c :: h' := by
    cases h with
    | nil => exact absurd rfl hne
    | cons c h' => exact ⟨c, h', rfl⟩
  have hsp := takeWhile_append_all Char.isAlphanum (c :: h') r hal hr
  have hc : c.isAlphanum = true := hal c (List.mem_cons_self _ _)
  rw [List.cons_append] at hsp ⊢
  simp only [tokenizeFuel, nextToken, hc, if_true, hsp.1, hsp.2]

theorem tok_skip (r : List Char) (f : Nat) :
    tokenizeFuel (f + 1) (':' :: ':' :: r) = .skip :: tokenizeFuel f r := rfl

theorem tok_sep (r : List Char) (f : Nat)
    (hr : ∀ c, r.head? = some c → c ≠ ':') :
    tokenizeFuel (f + 1) (':' :: r) = .sep :: tokenizeFuel f r := by
  cases r with
  | nil => rfl
  | cons c r' =>
    have hc : c ≠ ':' := hr c rfl
    have hnext : nextToken (':' :: c :: r') = some (.sep, c :: r') := by
      simp only [nextToken]
      rw [if_neg (by decide), if_pos trivial]
      split
      · next cs2 heq =>
        exact absurd (List.head_eq_of_cons_eq heq) hc
      · rfl
    simp only [tokenizeFuel, hnext]


/-! ## Composed tokenization of joined hex runs -/

theorem alnum_ne_colon (c : Char) (h : c.isAlphanum = true) : c ≠ ':' := by
  rintro rfl
  exact absurd h (by decide)

theorem headNotAlnum_nil : HeadNotAlnum [] := by
  intro c hc
  simp at hc

theorem headNotAlnum_colon (r : List Char) : HeadNotAlnum (':' :: r) := by
  intro c hc
  simp at hc
  subst hc
  decide

theorem headNotAlnum_withSeps_append (ls : List (List Char)) (r : List Char)
    (hr : HeadNotAlnum r) : HeadNotAlnum (withSeps ls ++ r) := by
  cases ls with
  | nil => simpa [withSeps]
  | cons l ls =>
    rw [withSeps, List.cons_append]
    exact headNotAlnum_colon _

theorem withSeps_len_ge (ls : List (List Char)) (hg : GoodRuns ls) :
    2 * ls.length ≤ (withSeps ls).length := by
  induction ls with
  | nil => simp [withSeps]
  | cons l ls ih =>
    have hl : l ≠ [] := (hg l (List.mem_cons_self _ _)).1
    have hlen : 1 ≤ l.length := List.length_pos.mpr hl
    have := ih (fun x hx => hg x (List.mem_cons_of_mem _ hx))
    rw [withSeps]
    simp only [List.length_cons, List.length_append]
    omega

theorem charJoin_len_ge (l : List Char) (ls : List (List Char))
    (hg : GoodRuns (l :: ls)) :
    2 * ls.length + 1 ≤ (charJoin (l :: ls)).length := by
  have hl : l ≠ [] := (hg l (List.mem_cons_self _ _)).1
  have hlen : 1 ≤ l.length := List.length_pos.mpr hl
  have := withSeps_len_ge ls (fun x hx => hg x (List.mem_cons_of_mem _ hx))
  rw [charJoin]
  simp only [List.length_append]
  omega

theorem tok_withSeps : ∀ (ls : List (List Char)) (r : List Char) (f : Nat),
    GoodRuns ls → HeadNotAlnum r →
    tokenizeFuel (f + 2 * ls.length) (withSeps ls ++ r)
      = withSepToks ls ++ tokenizeFuel f r := by
  intro ls
  induction ls with
  | nil =>
    intro r f _ _
    simp [withSeps, withSepToks]
  | cons l ls ih =>
    intro r f hg hr
    have hl : l ≠ [] := (hg l (List.mem_cons_self _ _)).1
    have hal : ∀ c ∈ l, c.isAlphanum = true := (hg l (List.mem_cons_self _ _)).2
    have hg' : GoodRuns ls := fun x hx => hg x (List.mem_cons_of_mem _ hx)
    have hfuel : f + 2 * (l :: ls).length = (f + 2 * ls.length + 1) + 1 := by
      simp only [List.length_cons]
      ring
    rw [hfuel, withSeps]
    have hshape : (':' :: l ++ withSeps ls) ++ r = ':' :: (l ++ (withSeps ls ++ r)) := by
      simp [List.append_assoc]
    rw [hshape]
    have hheadl : ∀ c, (l ++ (withSeps ls ++ r)).head? = some c → c ≠ ':' := by
      obtain ⟨x, l', rfl⟩ : ∃ x l', l = x :: l' := by
        cases l with
        | nil => exact absurd rfl hl
        | cons x l' => exact ⟨x, l', rfl⟩
      intro c hc
      rw [List.cons_append, List.head?_cons] at hc
      cases hc
      exact alnum_ne_colon x (hal x (List.mem_cons_self _ _))
    rw [tok_sep _ _ hheadl]
    rw [tok_num l (withSeps ls ++ r) _ hl hal
      (headNotAlnum_withSeps_append ls r hr)]
    rw [ih r f hg' hr, withSepToks]
    rfl

theorem tok_joinRuns (l : List Char) (ls : List (List Char)) (r : List Char)
    (f : Nat) (hg : GoodRuns (l :: ls)) (hr : HeadNotAlnum r) :
    tokenizeFuel (f + (2 * ls.length + 1)) (charJoin (l :: ls) ++ r)
      = joinToks (l :: ls) ++ tokenizeFuel f r := by
  have hl : l ≠ [] := (hg l (List.mem_cons_self _ _)).1
  have hal : ∀ c ∈ l, c.isAlphanum = true := (hg l (List.mem_cons_self _ _)).2
  have hg' : GoodRuns ls := fun x hx => hg x (List.mem_cons_of_mem _ hx)
  have hfuel : f + (2 * ls.length + 1) = (f + 2 * ls.length) + 1 := by ring
  rw [hfuel, charJoin]
  have hshape : (l ++ withSeps ls) ++ r = l ++ (withSeps ls ++ r) := by
    simp [List.append_assoc]
  rw [hshape]
  rw [tok_num l (withSeps ls ++ r) _ hl hal
    (headNotAlnum_withSeps_append ls r hr)]
  rw [tok_withSeps ls r f hg' hr, joinToks]
  rfl

theorem tokenize_plain (l : List Char) (ls : List (List Char))
    (hg : GoodRuns (l :: ls)) :
    tokenize (charJoin (l :: ls)) = joinToks (l :: ls) := by
  rw [tokenize]
  have hlen := charJoin_len_ge l ls hg
  have hf : (charJoin (l :: ls)).length + 1
      = ((charJoin (l :: ls)).length - 2 * ls.length) + (2 * ls.length + 1) := by
    omega
  rw [hf]
  have h := tok_joinRuns l ls []
    ((charJoin (l :: ls)).length - 2 * ls.length) hg headNotAlnum_nil
  rw [List.append_nil] at h
  rw [h, tokenizeFuel_nil, List.append_nil]

theorem tokenize_elided (pre post : List (List Char))
    (hgpre : GoodRuns pre) (hgpost : GoodRuns post) :
    tokenize (charJoin pre ++ ':' :: ':' :: charJoin post)
      = joinToks pre ++ .skip :: joinToks post := by
  cases pre with
  | nil =>
    rw [charJoin, List.nil_append, joinToks, List.nil_append, tokenize]
    cases post with
    | nil => decide
    | cons l ls =>
      have hlen := charJoin_len_ge l ls hgpost
      set L := (':' :: ':' :: charJoin (l :: ls)).length with hL
      have hL2 : L = (charJoin (l :: ls)).length + 2 := by
        simp only [hL, List.length_cons]
      have hf : L + 1 = ((L - (2 * ls.length + 1)) + (2 * ls.length + 1)) + 1 := by
        omega
      rw [hf, tok_skip]
      have h := tok_joinRuns l ls [] (L - (2 * ls.length + 1)) hgpost headNotAlnum_nil
      rw [List.append_nil] at h
      rw [h, tokenizeFuel_nil, List.append_nil]
  | cons lp lsp =>
    rw [tokenize]
    have hlenpre := charJoin_len_ge lp lsp hgpre
    set L := (charJoin (lp :: lsp) ++ ':' :: ':' :: charJoin post).length with hL
    have hL2 : L = (charJoin (lp :: lsp)).length + 2 + (charJoin post).length := by
      simp only [hL, List.length_append, List.length_cons]
      omega
    cases post with
    | nil =>
      have hnil : (charJoin ([] : List (List Char))).length = 0 := rfl
      have hf : L + 1 = (((L - 2 * lsp.length - 1) + 1) + (2 * lsp.length + 1)) := by
        omega
      rw [hf]
      rw [tok_joinRuns lp lsp _ _ hgpre (headNotAlnum_colon _)]
      rw [charJoin, tok_skip, tokenizeFuel_nil]
      rfl
    | cons l ls =>
      have hlenpost := charJoin_len_ge l ls hgpost
      have hf : L + 1
          = ((((L - (2 * lsp.length + 2 * ls.length + 2)) + (2 * ls.length + 1)) + 1)
            + (2 * lsp.length + 1)) := by
        omega
      rw [hf]
      rw [tok_joinRuns lp lsp _ _ hgpre (headNotAlnum_colon _)]
      rw [tok_skip]
      have h := tok_joinRuns l ls [] (L - (2 * lsp.length + 2 * ls.length + 2))
        hgpost headNotAlnum_nil
      rw [List.append_nil] at h
      rw [h, tokenizeFuel_nil, List.append_nil]


/-! ## Parser lemmas on joined num tokens -/

theorem parse_num_step (v : Nat) (ts : List AddrToken) (st : ParseSt)
    (hpl : st.plen = none) (hds : st.did_skip = false) (hcp : st.cur_part ≤ 7)
    (hv : v < 65536) :
    parseTokens (.num (hexTrimChars v) :: ts) st
      = parseTokens ts { st with cur_part := st.cur_part + 1,
                                 hi := st.hi ||| v <<< ((7 - st.cur_part) * 16) } := by
  have hlen : ¬ (hexTrimChars v).length > 4 := by
    have := hexTrim_len v hv
    omega
  simp [parseTokens, hpl, hds, hexVal_hexTrim, hlen, hcp]

theorem parse_num_step_post (v : Nat) (ts : List AddrToken) (st : ParseSt)
    (hpl : st.plen = none) (hds : st.did_skip = true) (hv : v < 65536) :
    parseTokens (.num (hexTrimChars v) :: ts) st
      = parseTokens ts { st with cur_part := st.cur_part + 1,
                                 lo := st.lo <<< 16 ||| v } := by
  have hlen : ¬ (hexTrimChars v).length > 4 := by
    have := hexTrim_len v hv
    omega
  simp [parseTokens, hpl, hds, hexVal_hexTrim, hlen]

theorem parse_skip_step (ts : List AddrToken) (st : ParseSt)
    (hpl : st.plen = none) (hds : st.did_skip = false) :
    parseTokens (.skip :: ts) st = parseTokens ts { st with did_skip := true } := by
  simp [parseTokens, hpl, hds]

theorem parse_sep_step (ts : List AddrToken) (st : ParseSt)
    (hpl : st.plen = none) :
    parseTokens (.sep :: ts) st = parseTokens ts st := by
  simp [parseTokens, hpl]

theorem parse_withSepToks : ∀ (vs : List Nat) (ts : List AddrToken) (st : ParseSt),
    st.plen = none → st.did_skip = false → st.cur_part + vs.length ≤ 8 →
    (∀ v ∈ vs, v < 65536) →
    parseTokens (withSepToks (vs.map hexTrimChars) ++ ts) st
      = parseTokens ts { st with cur_part := st.cur_part + vs.length,
                                 hi := st.hi ||| packFrom st.cur_part vs } := by
  intro vs
  induction vs with
  | nil =>
    intro ts st hpl hds _ _
    simp [withSepToks, packFrom]
  | cons v vs ih =>
    intro ts st hpl hds hcnt hlt
    rw [List.map_cons, withSepToks, List.cons_append, List.cons_append]
    rw [parse_sep_step _ _ hpl]
    rw [parse_num_step v _ st hpl hds (by simp at hcnt; omega)
      (hlt v (List.mem_cons_self _ _))]
    rw [ih ts _ (by simp [hpl]) (by simp [hds]) (by simp at hcnt ⊢; omega)
      (fun x hx => hlt x (List.mem_cons_of_mem _ hx))]
    congr 1
    simp only [ParseSt.mk.injEq, List.length_cons]
    refine ⟨by omega, trivial, trivial, ?_, trivial⟩
    rw [packFrom, Nat.lor_assoc]

theorem parse_joinToks_pre (vs : List Nat) (ts : List AddrToken) (st : ParseSt)
    (hpl : st.plen = none) (hds : st.did_skip = false)
    (hcnt : st.cur_part + vs.length ≤ 8) (hlt : ∀ v ∈ vs, v < 65536) :
    parseTokens (joinToks (vs.map hexTrimChars) ++ ts) st
      = parseTokens ts { st with cur_part := st.cur_part + vs.length,
                                 hi := st.hi ||| packFrom st.cur_part vs } := by
  cases vs with
  | nil => simp [joinToks, packFrom]
  | cons v vs =>
    rw [List.map_cons, joinToks, List.cons_append]
    rw [parse_num_step v _ st hpl hds (by simp at hcnt; omega)
      (hlt v (List.mem_cons_self _ _))]
    rw [parse_withSepToks vs ts _ (by simp [hpl]) (by simp [hds])
      (by simp at hcnt ⊢; omega) (fun x hx => hlt x (List.mem_cons_of_mem _ hx))]
    congr 1
    simp only [ParseSt.mk.injEq, List.length_cons]
    refine ⟨by omega, trivial, trivial, ?_, trivial⟩
    rw [packFrom, Nat.lor_assoc]

theorem parse_withSepToks_post : ∀ (vs : List Nat) (ts : List AddrToken)
    (st : ParseSt), st.plen = none → st.did_skip = true →
    (∀ v ∈ vs, v < 65536) →
    parseTokens (withSepToks (vs.map hexTrimChars) ++ ts) st
      = parseTokens ts { st with cur_part := st.cur_part + vs.length,
                                 lo := loAcc st.lo vs } := by
  intro vs
  induction vs with
  | nil =>
    intro ts st hpl hds _
    simp [withSepToks, loAcc]
  | cons v vs ih =>
    intro ts st hpl hds hlt
    rw [List.map_cons, withSepToks, List.cons_append, List.cons_append]
    rw [parse_sep_step _ _ hpl]
    rw [parse_num_step_post v _ st hpl hds (hlt v (List.mem_cons_self _ _))]
    rw [ih ts _ (by simp [hpl]) (by simp [hds])
      (fun x hx => hlt x (List.mem_cons_of_mem _ hx))]
    congr 1
    simp only [ParseSt.mk.injEq, List.length_cons]
    refine ⟨by omega, trivial, ?_, trivial, trivial⟩
    rw [loAcc]

theorem parse_joinToks_post (vs : List Nat) (ts : List AddrToken) (st : ParseSt)
    (hpl : st.plen = none) (hds : st.did_skip = true)
    (hlt : ∀ v ∈ vs, v < 65536) :
    parseTokens (joinToks (vs.map hexTrimChars) ++ ts) st
      = parseTokens ts { st with cur_part := st.cur_part + vs.length,
                                 lo := loAcc st.lo vs } := by
  cases vs with
  | nil => simp [joinToks, loAcc]
  | cons v vs =>
    rw [List.map_cons, joinToks, List.cons_append]
    rw [parse_num_step_post v _ st hpl hds (hlt v (List.mem_cons_self _ _))]
    rw [parse_withSepToks_post vs ts _ (by simp [hpl]) (by simp [hds])
      (fun x hx => hlt x (List.mem_cons_of_mem _ hx))]
    congr 1
    simp only [ParseSt.mk.injEq, List.length_cons]
    refine ⟨by omega, trivial, ?_, trivial, trivial⟩
    rw [loAcc]


/-! ## Numeric reassembly lemmas -/

theorem shiftLeft_or_eq_add (a k b : Nat) (hb : b < 2 ^ k) :
    a <<< k ||| b = a * 2 ^ k + b := by
  rw [Nat.shiftLeft_eq]
  have h := Nat.mul_add_lt_is_or hb a
  rw [Nat.mul_comm (2 ^ k) a] at h
  exact h.symm

theorem hexSum_go : ∀ (vs : List Nat) (acc : Nat),
    List.foldl (fun a h => a * 65536 + h) acc vs
      = acc * 65536 ^ vs.length + hexSum vs := by
  intro vs
  induction vs with
  | nil => intro acc; simp [hexSum]
  | cons v vs ih =>
    intro acc
    simp only [List.foldl_cons, hexSum, List.length_cons]
    rw [ih (acc * 65536 + v), ih (0 * 65536 + v)]
    ring

theorem hexSum_cons (v : Nat) (vs : List Nat) :
    hexSum (v :: vs) = v * 65536 ^ vs.length + hexSum vs := by
  have h := hexSum_go vs v
  simp only [hexSum, List.foldl_cons, Nat.zero_mul, Nat.zero_add]
  rw [h]
  rfl

theorem hexSum_append (xs ys : List Nat) :
    hexSum (xs ++ ys) = hexSum xs * 65536 ^ ys.length + hexSum ys := by
  simp only [hexSum, List.foldl_append]
  rw [hexSum_go ys]
  rfl

theorem hexSum_lt (vs : List Nat) (h : ∀ v ∈ vs, v < 65536) :
    hexSum vs < 65536 ^ vs.length := by
  induction vs with
  | nil => simp [hexSum]
  | cons v vs ih =>
    rw [hexSum_cons]
    have hv := h v (List.mem_cons_self _ _)
    have hih := ih (fun x hx => h x (List.mem_cons_of_mem _ hx))
    calc v * 65536 ^ vs.length + hexSum vs
        < v * 65536 ^ vs.length + 65536 ^ vs.length := by omega
    _ = (v + 1) * 65536 ^ vs.length := by ring
    _ ≤ 65536 * 65536 ^ vs.length := Nat.mul_le_mul_right _ (by omega)
    _ = 65536 ^ (v :: vs).length := by rw [List.length_cons]; ring

theorem hexSum_zeros (vs : List Nat) (h : ∀ v ∈ vs, v = 0) : hexSum vs = 0 := by
  induction vs with
  | nil => simp [hexSum]
  | cons v vs ih =>
    rw [hexSum_cons, h v (List.mem_cons_self _ _),
      ih (fun x hx => h x (List.mem_cons_of_mem _ hx))]
    simp

theorem two_pow_sixteen_mul (m : Nat) : (2 : Nat) ^ (m * 16) = 65536 ^ m := by
  have h : (65536 : Nat) = 2 ^ 16 := by norm_num
  rw [h, ← Nat.pow_mul, Nat.mul_comm]

theorem packFrom_eq : ∀ (vs : List Nat) (c : Nat), c + vs.length ≤ 8 →
    (∀ v ∈ vs, v < 65536) →
    packFrom c vs = hexSum vs * 65536 ^ (8 - (c + vs.length)) := by
  intro vs
  induction vs with
  | nil => intro c _ _; simp [packFrom, hexSum]
  | cons v vs ih =>
    intro c hc hlt
    simp only [List.length_cons] at hc
    have hc7 : c ≤ 7 := by omega
    rw [packFrom, ih (c + 1) (by omega)
      (fun x hx => hlt x (List.mem_cons_of_mem _ hx))]
    have hb : hexSum vs * 65536 ^ (8 - (c + 1 + vs.length)) < 2 ^ ((7 - c) * 16) := by
      have h1 : hexSum vs < 65536 ^ vs.length :=
        hexSum_lt vs (fun x hx => hlt x (List.mem_cons_of_mem _ hx))
      rw [two_pow_sixteen_mul]
      calc hexSum vs * 65536 ^ (8 - (c + 1 + vs.length))
          < 65536 ^ vs.length * 65536 ^ (8 - (c + 1 + vs.length)) :=
            mul_lt_mul_of_pos_right h1 (by positivity)
      _ = 65536 ^ (vs.length + (8 - (c + 1 + vs.length))) := by rw [← pow_add]
      _ ≤ 65536 ^ (7 - c) := Nat.pow_le_pow_right (by norm_num) (by omega)
    rw [shiftLeft_or_eq_add _ _ _ hb, hexSum_cons]
    rw [two_pow_sixteen_mul]
    have e1 : 7 - c = vs.length + (8 - (c + (vs.length + 1))) := by omega
    have e2 : 8 - (c + 1 + vs.length) = 8 - (c + (vs.length + 1)) := by omega
    rw [e1, e2, pow_add, List.length_cons]
    ring

theorem loAcc_eq : ∀ (vs : List Nat) (lo : Nat), (∀ v ∈ vs, v < 65536) →
    loAcc lo vs = lo * 65536 ^ vs.length + hexSum vs := by
  intro vs
  induction vs with
  | nil => intro lo _; simp [loAcc, hexSum]
  | cons v vs ih =>
    intro lo hlt
    rw [loAcc, ih _ (fun x hx => hlt x (List.mem_cons_of_mem _ hx))]
    have hv : lo <<< 16 ||| v = lo * 65536 + v := by
      have h := shiftLeft_or_eq_add lo 16 v
        (by have := hlt v (List.mem_cons_self _ _); omega)
      simpa using h
    rw [hv, hexSum_cons, List.length_cons]
    ring

theorem hexSum_range_assemble : ∀ (k : Nat) (a : Nat), a < 65536 ^ k →
    hexSum ((List.range k).map (fun i => (a >>> ((k - 1 - i) * 16)) &&& 0xFFFF)) = a := by
  intro k
  induction k with
  | zero =>
    intro a ha
    interval_cases a
    rfl
  | succ k ih =>
    intro a ha
    rw [List.range_succ, List.map_append, List.map_cons, List.map_nil]
    rw [hexSum_append]
    have hdiv : a >>> 16 < 65536 ^ k := by
      rw [Nat.shiftRight_eq_div_pow]
      have h16 : (2 : Nat) ^ 16 = 65536 := by norm_num
      rw [h16, Nat.div_lt_iff_lt_mul (by norm_num)]
      calc a < 65536 ^ (k + 1) := ha
      _ = 65536 ^ k * 65536 := by ring
    have hlast : (a >>> ((k + 1 - 1 - k) * 16)) &&& 0xFFFF = a % 65536 := by
      have h0 : (k + 1 - 1 - k) * 16 = 0 := by omega
      rw [h0, Nat.shiftRight_zero]
      have hm : (0xFFFF : Nat) = 2 ^ 16 - 1 := by norm_num
      rw [hm, Nat.and_pow_two_sub_one_eq_mod]
    have hmap : (List.range k).map (fun i => (a >>> ((k + 1 - 1 - i) * 16)) &&& 0xFFFF)
        = (List.range k).map (fun i => ((a >>> 16) >>> ((k - 1 - i) * 16)) &&& 0xFFFF) := by
      apply List.map_congr_left
      intro i hi
      rw [List.mem_range] at hi
      have he : (k + 1 - 1 - i) * 16 = 16 + (k - 1 - i) * 16 := by
        have : k + 1 - 1 - i = (k - 1 - i) + 1 := by omega
        rw [this]
        ring
      rw [he, Nat.shiftRight_add]
    rw [hmap, ih (a >>> 16) hdiv, hlast]
    have hsr : a >>> 16 = a / 65536 := by
      rw [Nat.shiftRight_eq_div_pow]
    have hs1 : hexSum [a % 65536] = a % 65536 := by simp [hexSum]
    rw [hsr, hs1]
    simp only [List.length_cons, List.length_nil, pow_one]
    omega

theorem hextetsOf_eq_range (a : Nat) :
    hextetsOf a
      = (List.range 8).map (fun i => (a >>> ((8 - 1 - i) * 16)) &&& 0xFFFF) := rfl

theorem hexSum_hextetsOf (a : Nat) (ha : a ≤ MAX_ADDR) : hexSum (hextetsOf a) = a := by
  rw [hextetsOf_eq_range]
  apply hexSum_range_assemble
  have h8 : (65536 : Nat) ^ 8 = 2 ^ 128 := by norm_num
  rw [h8]
  rw [MAX_ADDR] at ha
  omega

theorem hextetsOf_lt (a : Nat) : ∀ x ∈ hextetsOf a, x < 65536 := by
  intro x hx
  rw [hextetsOf] at hx
  obtain ⟨i, _, rfl⟩ := List.mem_map.mp hx
  have h := Nat.and_le_right (n := a >>> ((7 - i) * 16)) (m := 0xFFFF)
  omega

theorem hextetsOf_len (a : Nat) : (hextetsOf a).length = 8 := by
  simp [hextetsOf]


/-! ## Render loop characterization -/

theorem renderLoop_cons (pad : PadMode) (cs : Int × Int) (idx : Int) (h : Nat)
    (hs : List Nat) (st : List Char × Bool) :
    renderLoop pad cs idx (h :: hs) st
      = renderLoop pad cs (idx + 1) hs (renderStep pad cs idx h st) := by
  rcases st with ⟨ret, hb⟩
  by_cases hC : cs.1 ≤ idx ∧ idx ≤ cs.2
  · simp only [renderLoop, renderStep, if_pos hC]
  · simp only [renderLoop, renderStep, if_neg hC]

theorem renderLoop_append (pad : PadMode) (cs : Int × Int) :
    ∀ (xs ys : List Nat) (idx : Int) (st : List Char × Bool),
    renderLoop pad cs idx (xs ++ ys) st
      = renderLoop pad cs (idx + xs.length) ys (renderLoop pad cs idx xs st) := by
  intro xs
  induction xs with
  | nil =>
    intro ys idx st
    simp [renderLoop]
  | cons h hs ih =>
    intro ys idx st
    rw [List.cons_append, renderLoop_cons, renderLoop_cons, ih]
    congr 1
    simp only [List.length_cons]
    push_cast
    ring

theorem render_outside (pad : PadMode) (cs : Int × Int) :
    ∀ (hs : List Nat) (idx : Int) (ret : List Char) (hb : Bool),
    (∀ j : Int, idx ≤ j → j < idx + hs.length → ¬(cs.1 ≤ j ∧ j ≤ cs.2)) →
    renderLoop pad cs idx hs (ret, hb)
      = (ret ++ sepPre hb (hs.map (hexOf pad)),
         if hs.isEmpty then hb else true) := by
  intro hs
  induction hs with
  | nil =>
    intro idx ret hb _
    cases hb <;> simp [renderLoop, sepPre, withSeps, charJoin]
  | cons h hs ih =>
    intro idx ret hb hout
    have hidx : ¬(cs.1 ≤ idx ∧ idx ≤ cs.2) :=
      hout idx le_rfl (by simp only [List.length_cons]; push_cast; omega)
    rw [renderLoop_cons]
    have hstep : renderStep pad cs idx h (ret, hb)
        = ((if hb then ret ++ [':'] else ret) ++ hexOf pad h, true) := by
      simp only [renderStep, if_neg hidx]
    rw [hstep]
    rw [ih (idx + 1) _ true
      (fun j h1 h2 => hout j (by omega)
        (by simp only [List.length_cons]; push_cast at h2 ⊢; omega))]
    cases hb <;>
      simp [sepPre, withSeps, charJoin, List.append_assoc] <;>
      cases hs <;> simp [withSeps]

theorem render_mid_cont (pad : PadMode) (s e : Int) :
    ∀ (hs : List Nat) (idx : Int) (ret : List Char), s < idx →
    (∀ j : Int, idx ≤ j → j < idx + hs.length → s ≤ j ∧ j ≤ e) →
    renderLoop pad (s, e) idx hs (ret, false) = (ret, false) := by
  intro hs
  induction hs with
  | nil =>
    intro idx ret _ _
    simp [renderLoop]
  | cons h hs ih =>
    intro idx ret hlt hin
    have hidx := hin idx le_rfl (by simp only [List.length_cons]; push_cast; omega)
    rw [renderLoop_cons]
    have hstep : renderStep pad (s, e) idx h (ret, false) = (ret, false) := by
      simp only [renderStep, if_pos (show (s, e).1 ≤ idx ∧ idx ≤ (s, e).2 from hidx)]
      rw [if_neg (show ¬ (s, e).1 = idx from
        fun heq => absurd (show s = idx from heq) (by omega))]
    rw [hstep]
    exact ih (idx + 1) ret (by omega)
      (fun j h1 h2 => hin j (by omega)
        (by simp only [List.length_cons]; push_cast at h2 ⊢; omega))

theorem render_mid (pad : PadMode) (s e : Int) (hs : List Nat) (ret : List Char)
    (hb : Bool) (hne : hs ≠ [])
    (hin : ∀ j : Int, s ≤ j → j < s + hs.length → s ≤ j ∧ j ≤ e) :
    renderLoop pad (s, e) s hs (ret, hb) = (ret ++ [':', ':'], false) := by
  obtain ⟨h, hs', rfl⟩ : ∃ h hs', hs = h :: hs' := by
    cases hs with
    | nil => exact absurd rfl hne
    | cons h hs' => exact ⟨h, hs', rfl⟩
  have hs0 : s ≤ s ∧ s ≤ e := hin s le_rfl
    (by simp only [List.length_cons]; push_cast; omega)
  rw [renderLoop_cons]
  have hstep : renderStep pad (s, e) s h (ret, hb) = (ret ++ [':', ':'], false) := by
    simp only [renderStep, if_pos (show (s, e).1 ≤ s ∧ s ≤ (s, e).2 from hs0)]
    simp
  rw [hstep]
  exact render_mid_cont pad s e hs' (s + 1) _ (by omega)
    (fun j h1 h2 => hin j (by omega)
      (by simp only [List.length_cons]; push_cast at h2 ⊢; omega))

theorem renderChars_plain (pad : PadMode) (cs : Int × Int) (hx : List Nat)
    (h8 : hx.length = 8)
    (hout : ∀ j : Int, 0 ≤ j → j < 8 → ¬(cs.1 ≤ j ∧ j ≤ cs.2)) :
    (renderLoop pad cs 0 hx ([], false)).1 = charJoin (hx.map (hexOf pad)) := by
  rw [render_outside pad cs hx 0 [] false
    (fun j h1 h2 => hout j h1 (by rw [h8] at h2; push_cast at h2; omega))]
  simp [sepPre]


theorem renderChars_elided (pad : PadMode) (s e : Int) (hx : List Nat)
    (h8 : hx.length = 8) (hs0 : 0 ≤ s) (hse : s ≤ e) (he7 : e ≤ 7) :
    (renderLoop pad (s, e) 0 hx ([], false)).1
      = charJoin ((hx.take s.toNat).map (hexOf pad)) ++ ':' :: ':' ::
        charJoin ((hx.drop (e.toNat + 1)).map (hexOf pad)) := by
  have hsN : (s.toNat : Int) = s := Int.toNat_of_nonneg hs0
  have heN : (e.toNat : Int) = e := Int.toNat_of_nonneg (le_trans hs0 hse)
  have hlen_pre : (hx.take s.toNat).length = s.toNat := by
    rw [List.length_take, h8]
    omega
  set mid := (hx.drop s.toNat).take (e.toNat + 1 - s.toNat) with hmid
  have hlen_drop : (hx.drop s.toNat).length = 8 - s.toNat := by
    rw [List.length_drop, h8]
  have hlen_mid : mid.length = e.toNat + 1 - s.toNat := by
    rw [hmid, List.length_take, hlen_drop]
    omega
  have hsplit : hx = hx.take s.toNat ++ (mid ++ hx.drop (e.toNat + 1)) := by
    rw [hmid]
    have h1 : (hx.drop s.toNat).drop (e.toNat + 1 - s.toNat)
        = hx.drop (e.toNat + 1) := by
      rw [List.drop_drop]
      congr 1
      omega
    rw [← h1, List.take_append_drop, List.take_append_drop]
  conv_lhs => rw [hsplit]
  rw [renderLoop_append, renderLoop_append]
  rw [render_outside pad (s, e) (hx.take s.toNat) 0 [] false
    (fun j h1 h2 => by
      rw [hlen_pre] at h2
      intro hC
      have hC1 : s ≤ j := hC.1
      omega)]
  have hidx1 : (0 : Int) + ↑(hx.take s.toNat).length = s := by
    rw [hlen_pre]
    omega
  rw [hidx1]
  have hne : mid ≠ [] := by
    have : 0 < mid.length := by
      rw [hlen_mid]
      omega
    exact List.length_pos.mp this
  have hin : ∀ j : Int, s ≤ j → j < s + (mid.length : Int) → s ≤ j ∧ j ≤ e := by
    intro j hj1 hj2
    rw [hlen_mid] at hj2
    constructor
    · exact hj1
    · omega
  rw [render_mid pad s e mid _ _ hne hin]
  have hidx2 : s + (mid.length : Int) = e + 1 := by
    rw [hlen_mid]
    omega
  rw [hidx2]
  rw [render_outside pad (s, e) (hx.drop (e.toNat + 1)) (e + 1) _ false
    (fun j h1 h2 => by
      intro hC
      have hC2 : j ≤ e := hC.2
      omega)]
  simp [sepPre, List.append_assoc]


/-! ## Zero-run scan invariant -/

theorem scanLoop_cons (h0 idx v : Int) (vs : List Int) (st : ScanSt) :
    scanLoop h0 idx (v :: vs) st
      = scanLoop h0 (idx + 1) vs (scanStepFn h0 idx v st) := by
  by_cases hC : v = st.prev ∨ (st.first ∧ v = h0)
  · simp only [scanLoop, scanStepFn, if_pos hC]
  · simp only [scanLoop, scanStepFn, if_neg hC]

theorem LongestInv_mono (W : Int → Int) (idx idx' : Int) (o : Option (Int × Int))
    (ll : Int) (hle : idx ≤ idx') (h : LongestInv W idx o ll) :
    LongestInv W idx' o ll := by
  cases o with
  | none => exact h
  | some ab =>
    rcases ab with ⟨a, b⟩
    obtain ⟨e1, e2, e3, e4⟩ := h
    exact ⟨e1, e2, by omega, e4⟩

theorem scanStep_inv (W : Int → Int) (h0 idx : Int) (st : ScanSt)
    (hinv : ScanInv W h0 idx st) :
    ScanInv W h0 (idx + 1) (scanStepFn h0 idx (W idx) st) := by
  obtain ⟨h1, hprev, hcs0, hcs, hce, hreal, hrun, hfirst, hlong⟩ := hinv
  rw [scanStepFn]
  by_cases hC : W idx = st.prev ∨ (st.first ∧ W idx = h0)
  · rw [if_pos hC]
    have hWidx : W idx = st.prev := by
      rcases hC with h | ⟨hf, hh⟩
      · exact h
      · obtain ⟨hcsz, hh0⟩ := hfirst hf
        rw [hh, hh0]
        exact hrun 0 (by omega) (by omega)
    refine ⟨by omega, ?_, hcs0, ?_, ?_, ?_, ?_, ?_, ?_⟩
    · show W idx = W (idx + 1 - 1)
      congr 1
      omega
    · show st.cur_start ≤ idx + 1 - 1
      omega
    · show idx ≤ idx + 1 - 1
      omega
    · intro _
      constructor
      · show idx = idx + 1 - 1
        omega
      · show st.cur_start = 0 ∨ st.cur_start < idx
        omega
    · intro j hj1 hj2
      show W j = W idx
      by_cases hje : j = idx
      · rw [hje]
      · rw [hWidx]
        exact hrun j hj1 (by omega)
    · intro hf
      exact hfirst hf
    · exact LongestInv_mono W idx (idx + 1) _ _ (by omega) hlong
  · rw [if_neg hC]
    set st1 := if st.prev = 0 ∧ st.cur_end - st.cur_start > st.longest_len then
        { st with longest := some (st.cur_start, st.cur_end),
                  longest_len := st.cur_end - st.cur_start }
      else st with hst1
    have hce1 : st1.cur_end = st.cur_end := by
      rw [hst1]
      split <;> rfl
    refine ⟨by omega, ?_, ?_, ?_, ?_, ?_, ?_, ?_, ?_⟩
    · show W idx = W (idx + 1 - 1)
      congr 1
      omega
    · show (0 : Int) ≤ idx
      omega
    · show idx ≤ idx + 1 - 1
      omega
    · show st1.cur_end ≤ idx + 1 - 1
      rw [hce1]
      omega
    · intro hle
      have hle2 : idx ≤ st1.cur_end := hle
      rw [hce1] at hle2
      exact absurd hle2 (by omega)
    · intro j hj1 hj2
      show W j = W idx
      have hj3 : idx ≤ j := hj1
      have hje : j = idx := by omega
      rw [hje]
    · intro hf
      exact absurd hf (by simp)
    · show LongestInv W (idx + 1) st1.longest st1.longest_len
      rw [hst1]
      split
      · next hrec =>
        show LongestInv W (idx + 1) (some (st.cur_start, st.cur_end))
          (st.cur_end - st.cur_start)
        refine ⟨rfl, hcs0, by omega, ?_⟩
        intro hab
        obtain ⟨hend, hsing⟩ := hreal hab
        refine ⟨?_, hsing⟩
        intro j hj1 hj2
        rw [hrun j hj1 (by omega)]
        exact hrec.1
      · exact LongestInv_mono W idx (idx + 1) _ _ (by omega) hlong


theorem scanLoop_inv (W : Int → Int) (h0 : Int) :
    ∀ (vs : List Int) (idx : Int) (st : ScanSt),
    (∀ k : Nat, k < vs.length → vs.get? k = some (W (idx + k))) →
    ScanInv W h0 idx st →
    ScanInv W h0 (idx + vs.length) (scanLoop h0 idx vs st) := by
  intro vs
  induction vs with
  | nil =>
    intro idx st _ hinv
    simpa [scanLoop] using hinv
  | cons v vs ih =>
    intro idx st hget hinv
    have hv : v = W idx := by
      have h := hget 0 (by simp)
      simpa using h
    rw [scanLoop_cons]
    simp only [List.length_cons]
    rw [hv]
    have hstep := scanStep_inv W h0 idx st hinv
    have hrest := ih (idx + 1) _ (fun k hk => by
      have h := hget (k + 1) (by simp; omega)
      simp only [List.get?_cons_succ] at h
      rw [h]
      congr 2
      push_cast
      ring) hstep
    have harg : idx + ((vs.length + 1 : Nat) : Int) = (idx + 1) + (vs.length : Int) := by
      push_cast
      ring
    rw [harg]
    exact hrest

theorem hxVal_zero_bounds (hx : List Nat) (j : Int) (h : hxVal hx j = 0) :
    0 ≤ j ∧ j < hx.length := by
  rw [hxVal] at h
  by_cases hb : 0 ≤ j ∧ j < hx.length
  · exact hb
  · rw [if_neg hb] at h
    exact absurd h (by norm_num)


theorem compressSection_cases (hx : List Nat) (h8 : hx.length = 8) :
    (∀ j : Int, 0 ≤ j →
      ¬((compressSection hx).1 ≤ j ∧ j ≤ (compressSection hx).2))
    ∨ (0 ≤ (compressSection hx).1
       ∧ (compressSection hx).1 ≤ (compressSection hx).2
       ∧ (compressSection hx).2 ≤ 7
       ∧ ∀ j : Int, (compressSection hx).1 ≤ j → j ≤ (compressSection hx).2 →
           hxVal hx j = 0) := by
  rw [compressSection]
  obtain ⟨a0, hxt, rfl⟩ : ∃ a0 hxt, hx = a0 :: hxt := by
    cases hx with
    | nil => simp at h8
    | cons a0 hxt => exact ⟨a0, hxt, rfl⟩
  simp only [List.headD_cons, List.map_cons, List.cons_append]
  set W := hxVal (a0 :: hxt) with hW
  have hlen : hxt.length = 7 := by
    simp only [List.length_cons] at h8
    omega
  have hW0 : W 0 = Int.ofNat a0 := by
    rw [hW, hxVal]
    rw [if_pos ⟨le_refl 0, by rw [h8]; norm_num⟩]
    rfl
  have hget : ∀ k : Nat, k < (hxt.map Int.ofNat ++ [(-1 : Int)]).length →
      (hxt.map Int.ofNat ++ [(-1 : Int)]).get? k = some (W (1 + k)) := by
    intro k hk
    simp only [List.length_append, List.length_map, List.length_cons,
      List.length_nil] at hk
    by_cases hk8 : k < hxt.length
    · rw [List.get?_append (by simpa using hk8), List.get?_map,
        List.get?_eq_get hk8]
      show some (Int.ofNat (hxt.get ⟨k, hk8⟩)) = some (W (1 + k))
      congr 1
      rw [hW, hxVal, if_pos ⟨by omega, by simp only [List.length_cons]; push_cast; omega⟩]
      have htn : ((1 : Int) + k).toNat = k + 1 := by omega
      rw [htn, List.getD_cons_succ, List.getD_eq_get?]
      rw [List.get?_eq_get hk8]
      rfl
    · have hk7 : k = hxt.length := by omega
      subst hk7
      rw [List.get?_append_right (by simp)]
      simp only [List.length_map, Nat.sub_self, List.get?_cons_zero]
      congr 1
      rw [hW, hxVal]
      rw [if_neg (by simp only [List.length_cons]; push_cast; omega)]
  have hstep1 : scanLoop (Int.ofNat a0) 0 (Int.ofNat a0 :: (hxt.map Int.ofNat ++ [(-1 : Int)]))
      ⟨none, -99, 0, 0, -1, true⟩
      = scanLoop (Int.ofNat a0) 1 (hxt.map Int.ofNat ++ [(-1 : Int)])
          ⟨none, -99, 0, 0, Int.ofNat a0, true⟩ := by
    rw [scanLoop_cons]
    congr 1
    rw [scanStepFn]
    rw [if_pos (Or.inr ⟨rfl, rfl⟩)]
  have hinv1 : ScanInv W (Int.ofNat a0) 1 ⟨none, -99, 0, 0, Int.ofNat a0, true⟩ := by
    refine ⟨le_refl 1, ?_, le_refl 0, by norm_num, by norm_num, ?_, ?_, ?_, rfl⟩
    · show Int.ofNat a0 = W (1 - 1)
      norm_num [hW0]
    · intro _
      exact ⟨by norm_num, Or.inl rfl⟩
    · intro j hj1 hj2
      have hj1b : (0 : Int) ≤ j := hj1
      have hj2b : j ≤ 1 - 1 := hj2
      have hj0 : j = 0 := by omega
      rw [hj0, hW0]
    · intro _
      exact ⟨rfl, hW0.symm⟩
  have hfin := scanLoop_inv W (Int.ofNat a0) (hxt.map Int.ofNat ++ [(-1 : Int)]) 1 _
    hget hinv1
  have hlen9 : ((hxt.map Int.ofNat ++ [(-1 : Int)]).length : Int) = 8 := by
    simp [hlen]
  rw [hlen9] at hfin
  obtain ⟨_, _, _, _, _, _, _, _, hlong⟩ := hfin
  rw [hstep1]
  set fin := scanLoop (Int.ofNat a0) 1 (hxt.map Int.ofNat ++ [(-1 : Int)])
    ⟨none, -99, 0, 0, Int.ofNat a0, true⟩ with hfindef
  cases hcase : fin.longest with
  | none =>
    left
    intro j hj hC
    have hC2 : (-1 : Int) ≤ j ∧ j ≤ (-1 : Int) := hC
    omega
  | some ab =>
    rcases ab with ⟨a, b⟩
    rw [hcase] at hlong
    obtain ⟨hll, ha0, hb8, hrest⟩ := hlong
    by_cases hab : a ≤ b
    · right
      obtain ⟨hzeros, hsing⟩ := hrest hab
      have hb7 : b ≤ 7 := by
        have hz := hzeros b (by omega) (le_refl b)
        have hbd := hxVal_zero_bounds _ _ hz
        rw [h8] at hbd
        omega
      exact ⟨ha0, hab, hb7, hzeros⟩
    · left
      intro j hj hC
      have hC2 : a ≤ j ∧ j ≤ b := hC
      omega


/-! ## The parse-format round trip -/

theorem goodRuns_map_hexTrim (vs : List Nat) : GoodRuns (vs.map hexTrimChars) := by
  intro l hl
  obtain ⟨v, _, rfl⟩ := List.mem_map.mp hl
  exact ⟨hexTrim_ne_nil v, hexTrim_alnum v⟩

theorem hexOf_trim : hexOf .TRIM = hexTrimChars := by
  funext n
  rfl

theorem toList_asString (l : List Char) : (l.asString).toList = l := rfl

theorem fromString_of_parse (s : String) (st : ParseSt)
    (hp : parseTokens (tokenize s.toList) ⟨0, false, 0, 0, none⟩ = .ok st)
    (hle : st.lo ||| st.hi ≤ MAX_ADDR) :
    Address.fromString s = .ok (st.lo ||| st.hi) := by
  rw [Address.fromString, parse_address, hp]
  show (if false = true ∧ st.plen = none then
      (Except.error "no prefix length specified" : Except String (Nat × Option Nat))
    else .ok (st.lo ||| st.hi, st.plen)) >>= _ = _
  rw [if_neg (by simp)]
  show (if st.lo ||| st.hi ≤ MAX_ADDR then
      Except.ok (st.lo ||| st.hi) else .error "address out of range") = _
  rw [if_pos hle]


theorem tokenize_plain2 (ls : List (List Char)) (hne : ls ≠ [])
    (hg : GoodRuns ls) : tokenize (charJoin ls) = joinToks ls := by
  cases ls with
  | nil => exact absurd rfl hne
  | cons l ls => exact tokenize_plain l ls hg

theorem parse_render_plain (a : Nat) (ha : a ≤ MAX_ADDR) (cs : Int × Int)
    (hout : ∀ j : Int, 0 ≤ j → j < 8 → ¬(cs.1 ≤ j ∧ j ≤ cs.2)) :
    Address.fromString
        (((renderLoop .TRIM cs 0 (hextetsOf a) ([], false)).1).asString)
      = .ok a := by
  have h8 := hextetsOf_len a
  have hlt := hextetsOf_lt a
  rw [renderChars_plain .TRIM cs (hextetsOf a) h8 hout, hexOf_trim]
  have hnil : (hextetsOf a).map hexTrimChars ≠ [] := by
    intro hcontra
    have := congrArg List.length hcontra
    simp [h8] at this
  have htok : tokenize
      (((charJoin ((hextetsOf a).map hexTrimChars)).asString).toList)
      = joinToks ((hextetsOf a).map hexTrimChars) := by
    rw [toList_asString]
    exact tokenize_plain2 _ hnil (goodRuns_map_hexTrim _)
  have hparse := parse_joinToks_pre (hextetsOf a) [] ⟨0, false, 0, 0, none⟩
    rfl rfl (by rw [h8]) hlt
  rw [List.append_nil] at hparse
  have hpack : packFrom 0 (hextetsOf a) = a := by
    rw [packFrom_eq _ 0 (by rw [h8]) hlt, h8]
    norm_num
    exact hexSum_hextetsOf a ha
  have hval : (0 : Nat) ||| ((0 : Nat) ||| packFrom 0 (hextetsOf a)) = a := by
    rw [Nat.zero_or, Nat.zero_or, hpack]
  have hp2 : parseTokens
      (tokenize (((charJoin ((hextetsOf a).map hexTrimChars)).asString).toList))
      ⟨0, false, 0, 0, none⟩
      = .ok ⟨0 + (hextetsOf a).length, false, 0,
             0 ||| packFrom 0 (hextetsOf a), none⟩ := by
    rw [htok, hparse]
    rfl
  have hres := fromString_of_parse _ _ hp2
    (by simp only [Nat.zero_or, hpack]; exact ha)
  rw [hres]
  show Except.ok ((0 : Nat) ||| ((0 : Nat) ||| packFrom 0 (hextetsOf a))) = _
  rw [hval]


theorem hxVal_getElem (hx : List Nat) (n : Nat) (hn : n < hx.length) :
    hxVal hx (n : Int) = ((hx.get ⟨n, hn⟩ : Nat) : Int) := by
  rw [hxVal, if_pos ⟨Int.natCast_nonneg n, by exact_mod_cast hn⟩]
  have htn : ((n : Int)).toNat = n := by omega
  rw [htn, List.getD_eq_get?, List.get?_eq_get hn]
  rfl

theorem parse_render_elided (a : Nat) (ha : a ≤ MAX_ADDR) (s e : Int)
    (hs0 : 0 ≤ s) (hse : s ≤ e) (he7 : e ≤ 7)
    (hzeros : ∀ j : Int, s ≤ j → j ≤ e → hxVal (hextetsOf a) j = 0) :
    Address.fromString
        (((renderLoop .TRIM (s, e) 0 (hextetsOf a) ([], false)).1).asString)
      = .ok a := by
  have h8 := hextetsOf_len a
  have hlt := hextetsOf_lt a
  have hsN : (s.toNat : Int) = s := Int.toNat_of_nonneg hs0
  have heN : (e.toNat : Int) = e := Int.toNat_of_nonneg (le_trans hs0 hse)
  have hse7 : s.toNat ≤ e.toNat ∧ e.toNat ≤ 7 := by omega
  rw [renderChars_elided .TRIM s e (hextetsOf a) h8 hs0 hse he7, hexOf_trim]
  set hx := hextetsOf a with hhx
  set pre := hx.take s.toNat with hpre
  set post := hx.drop (e.toNat + 1) with hpost
  have hlenpre : pre.length = s.toNat := by
    rw [hpre, List.length_take, h8]
    omega
  have hlenpost : post.length = 7 - e.toNat := by
    rw [hpost, List.length_drop, h8]
    omega
  have hltpre : ∀ v ∈ pre, v < 65536 := fun v hv => hlt v (List.mem_of_mem_take hv)
  have hltpost : ∀ v ∈ post, v < 65536 := fun v hv => hlt v (List.mem_of_mem_drop hv)
  -- tokenization
  have htok : tokenize (((charJoin (pre.map hexTrimChars) ++ ':' :: ':' ::
      charJoin (post.map hexTrimChars)).asString).toList)
      = joinToks (pre.map hexTrimChars) ++ .skip :: joinToks (post.map hexTrimChars) := by
    rw [toList_asString]
    exact tokenize_elided _ _ (goodRuns_map_hexTrim pre) (goodRuns_map_hexTrim post)
  -- parsing
  have hparse1 := parse_joinToks_pre pre (.skip :: joinToks (post.map hexTrimChars))
    ⟨0, false, 0, 0, none⟩ rfl rfl
    (by show 0 + pre.length ≤ 8; rw [hlenpre]; omega) hltpre
  have hparse2 := parse_skip_step (joinToks (post.map hexTrimChars))
    ⟨0 + pre.length, false, 0, 0 ||| packFrom 0 pre, none⟩ rfl rfl
  have hparse3 := parse_joinToks_post post []
    ⟨0 + pre.length, true, 0, 0 ||| packFrom 0 pre, none⟩ rfl rfl hltpost
  rw [List.append_nil] at hparse3
  have hp2 : parseTokens
      (tokenize (((charJoin (pre.map hexTrimChars) ++ ':' :: ':' ::
        charJoin (post.map hexTrimChars)).asString).toList))
      ⟨0, false, 0, 0, none⟩
      = .ok ⟨0 + pre.length + post.length, true, loAcc 0 post,
             0 ||| packFrom 0 pre, none⟩ := by
    rw [htok, hparse1]
    show parseTokens (AddrToken.skip :: joinToks (post.map hexTrimChars))
        ⟨0 + pre.length, false, 0, 0 ||| packFrom 0 pre, none⟩ = _
    rw [hparse2]
    show parseTokens (joinToks (post.map hexTrimChars))
        ⟨0 + pre.length, true, 0, 0 ||| packFrom 0 pre, none⟩ = _
    rw [hparse3]
    rfl
  -- the value reassembles to a
  have hmidzero : ∀ v ∈ (hx.drop s.toNat).take (e.toNat + 1 - s.toNat), v = 0 := by
    intro v hv
    obtain ⟨⟨i, hi⟩, hget⟩ := List.mem_iff_get.mp hv
    have hilen : i < e.toNat + 1 - s.toNat := by
      have := hi
      simp only [List.length_take, List.length_drop, h8] at this
      omega
    have hidx : s.toNat + i < hx.length := by
      rw [h8]
      omega
    have hdlen : i < (hx.drop s.toNat).length := by
      simp only [List.length_drop, h8]
      omega
    have hg1 : ((hx.drop s.toNat).take (e.toNat + 1 - s.toNat)).get ⟨i, hi⟩
        = (hx.drop s.toNat).get ⟨i, hdlen⟩ := by
      have h := List.getElem?_take_of_lt
        (l := hx.drop s.toNat) (n := e.toNat + 1 - s.toNat) (m := i) hilen
      rw [List.get_eq_getElem, List.get_eq_getElem]
      rw [List.getElem?_eq_getElem hi] at h
      rw [List.getElem?_eq_getElem hdlen] at h
      exact Option.some.inj h
    have hg2 : (hx.drop s.toNat).get ⟨i, hdlen⟩ = hx.get ⟨s.toNat + i, hidx⟩ :=
      (List.get_drop hx hidx).symm
    have hz := hzeros ((s.toNat + i : Nat) : Int)
      (by push_cast; omega) (by push_cast; omega)
    rw [hxVal_getElem hx (s.toNat + i) hidx] at hz
    have : hx.get ⟨s.toNat + i, hidx⟩ = 0 := by exact_mod_cast hz
    rw [← hget, hg1, hg2, this]
  have hsplit : hx = pre ++ ((hx.drop s.toNat).take (e.toNat + 1 - s.toNat) ++ post) := by
    rw [hpre, hpost]
    have h1 : (hx.drop s.toNat).drop (e.toNat + 1 - s.toNat)
        = hx.drop (e.toNat + 1) := by
      rw [List.drop_drop]
      congr 1
      omega
    rw [← h1, List.take_append_drop, List.take_append_drop]
  have hlenmid : ((hx.drop s.toNat).take (e.toNat + 1 - s.toNat)).length
      = e.toNat + 1 - s.toNat := by
    simp only [List.length_take, List.length_drop, h8]
    omega
  have hsuma : hexSum pre * 65536 ^ (8 - s.toNat) + hexSum post = a := by
    have h := hexSum_hextetsOf a ha
    rw [← hhx] at h
    conv_rhs => rw [← h]
    conv_rhs => rw [hsplit]
    rw [hexSum_append, hexSum_append, hexSum_zeros _ hmidzero,
      List.length_append, hlenmid, hlenpost]
    have hexp : e.toNat + 1 - s.toNat + (7 - e.toNat) = 8 - s.toNat := by omega
    rw [hexp, Nat.zero_mul, Nat.zero_add]
  have hval : loAcc 0 post ||| (0 ||| packFrom 0 pre) = a := by
    rw [Nat.zero_or]
    rw [loAcc_eq post 0 hltpost, packFrom_eq pre 0 (by rw [hlenpre]; omega) hltpre]
    rw [Nat.zero_mul, Nat.zero_add, hlenpre]
    have hpostlt : hexSum post < 2 ^ ((7 - e.toNat) * 16) := by
      rw [two_pow_sixteen_mul]
      have h := hexSum_lt post hltpost
      rw [hlenpost] at h
      exact h
    have hQ : hexSum pre * 65536 ^ (8 - (0 + s.toNat))
        = (hexSum pre * 65536 ^ ((8 - s.toNat) - (7 - e.toNat))) <<< ((7 - e.toNat) * 16) := by
      rw [Nat.shiftLeft_eq, two_pow_sixteen_mul, Nat.mul_assoc, ← pow_add]
      congr 2
      omega
    rw [hQ, Nat.lor_comm, shiftLeft_or_eq_add _ _ _ hpostlt]
    rw [two_pow_sixteen_mul, Nat.mul_assoc, ← pow_add]
    have hexp2 : 8 - s.toNat - (7 - e.toNat) + (7 - e.toNat) = 8 - s.toNat := by
      omega
    rw [hexp2]
    exact hsuma
  have hres := fromString_of_parse _ _ hp2 (by
    show loAcc 0 post ||| (0 ||| packFrom 0 pre) ≤ MAX_ADDR
    rw [hval]
    exact ha)
  rw [hres]
  show Except.ok (loAcc 0 post ||| (0 ||| packFrom 0 pre)) = _
  rw [hval]


/-- Parsing the short-form rendering of any in-range address value recovers
exactly that value. -/
theorem roundTrip (a : Nat) (ha : a ≤ MAX_ADDR) :
    Address.fromString (formatShort a) = .ok a := by
  have hfmt : formatShort a
      = ((renderLoop .TRIM (compressSection (hextetsOf a)) 0 (hextetsOf a)
          ([], false)).1).asString := rfl
  rw [hfmt]
  rcases compressSection_cases (hextetsOf a) (hextetsOf_len a) with
    hcase | ⟨h1, h2, h3, h4⟩
  · exact parse_render_plain a ha _ (fun j hj _ => hcase j hj)
  · have hpair : compressSection (hextetsOf a)
        = ((compressSection (hextetsOf a)).1, (compressSection (hextetsOf a)).2) := rfl
    rw [hpair]
    exact parse_render_elided a ha _ _ h1 h2 h3 h4

/-! ## Claim theorems (part 1) -/

/-- C1: the claim states `prefix_mask = (2^128-1) XOR (2^(128-p) - 1)` (top
`p` bits set).  The code computes `(2^128-1) XOR (2^p - 1)` instead: at
`p = 32` the stored mask is `2^128 - 2^32` (top 96 bits set, low 32 clear),
which differs from the claimed value. -/
theorem C1_prefix_mask_bug :
    Network.prefix_mask ⟨0, 32⟩ = .ok (2 ^ 128 - 2 ^ 32)
    ∧ (2 ^ 128 - 2 ^ 32 : Nat) ≠ (2 ^ 128 - 1) ^^^ (2 ^ (128 - 32) - 1) := by
  constructor
  · decide
  · decide

/-- C2: the claim requires `"2001:DB8::/32"` to contain
`"2001:DB8:0:0:8:800:200C:417A"`.  Because of the inverted mask (C1) the
code's `__contains__` returns `False` for that address (and also `False`
for `"2001:DB9::"`, where claim and code agree). -/
theorem C2_contains_bug :
    Network.ofString "2001:DB8::/32" = .ok ⟨0x20010DB8000000000000000000000000, 32⟩
    ∧ Address.fromString "2001:DB8:0:0:8:800:200C:417A"
        = .ok 0x20010DB80000000000080800200C417A
    ∧ Network.containsAddr ⟨0x20010DB8000000000000000000000000, 32⟩
        0x20010DB80000000000080800200C417A = .ok false
    ∧ Address.fromString "2001:DB9::" = .ok 0x20010DB9000000000000000000000000
    ∧ Network.containsAddr ⟨0x20010DB8000000000000000000000000, 32⟩
        0x20010DB9000000000000000000000000 = .ok false := by
  refine ⟨by decide, by decide, by decide, by decide, by decide⟩

/-- C3: the claim says indexing succeeds exactly on `0 ≤ k ≤ host_count-1`.
The code's guard `if 0 < k < self._max_idx: raise IndexError()` is inverted:
on the network `0::/126` (valid offsets 0..3) the in-range `k = 1` raises
`IndexError`, while the out-of-range `k = 100` returns an address. -/
theorem C3_getitem_bug :
    Network.ofIntPair 0 126 = .ok ⟨0, 126⟩
    ∧ Network.getItem ⟨0, 126⟩ 1 = .error "IndexError"
    ∧ Network.getItem ⟨0, 126⟩ 100 = .ok 100 := by
  refine ⟨by decide, by decide, by decide⟩

/-- C4: the claim says a negative-step slice visits the positive-step window
in reverse.  After the `(start, stop) → (stop-1, start-1)` swap the
iterator's termination test is still `cur >= stop`, which is immediately
true, so the slice `[::-1]` of `0::/126` yields nothing instead of the four
addresses in reverse. -/
theorem C4_negative_step_bug :
    sliceIter ⟨0, 126⟩ .none .none (.int (-1)) = .ok ⟨3, -1, -1⟩
    ∧ NetIter.run 10 ⟨3, -1, -1⟩ = .done []
    ∧ sliceIter ⟨0, 126⟩ .none .none .none = .ok ⟨0, 4, 1⟩
    ∧ NetIter.run 10 ⟨0, 4, 1⟩ = .done [0, 1, 2, 3]
    ∧ ([] : List Nat) ≠ [0, 1, 2, 3].reverse := by
  refine ⟨by decide, by decide, by decide, by decide, by decide⟩

/-- C5 (counterexample): the claim asserts that iterating *every* network
yields `host_count` addresses with no failure.  The constructor stores the
base address verbatim, so `Network(2^128-1, 126)` is accepted, and its
iteration fails with `address out of range` after the first element. -/
theorem C5_iteration_cx :
    Network.ofIntPair ((MAX_ADDR : Nat) : Int) 126 = .ok ⟨MAX_ADDR, 126⟩
    ∧ Network.iterNet ⟨MAX_ADDR, 126⟩
        = .ok ⟨(MAX_ADDR : Int), (MAX_ADDR : Int) + 4, 1⟩
    ∧ NetIter.run 10 ⟨(MAX_ADDR : Int), (MAX_ADDR : Int) + 4, 1⟩
        = .failed [MAX_ADDR] "address out of range" := by
  refine ⟨by decide, by decide, by decide⟩

/-- C5 (amended): for every network whose prefix length lies in `0..128`
and whose base address satisfies `base + 2^(128-p) ≤ 2^128`, iteration
yields exactly `host_count = 2^(128-p)` addresses, namely
`base, base+1, ..., base + host_count - 1` in ascending order, with no
failure. -/
theorem C5_iteration_amended (b p : Nat) (hp : p ≤ 128)
    (hb : b + 2 ^ (128 - p) ≤ 2 ^ 128) :
    Network.ofIntPair (b : Int) (p : Int) = .ok ⟨b, (p : Int)⟩
    ∧ Network.iterNet ⟨b, (p : Int)⟩
        = .ok ⟨(b : Int), (b : Int) + ((2 ^ (128 - p) : Nat) : Int), 1⟩
    ∧ NetIter.run (2 ^ (128 - p) + 1)
        ⟨(b : Int), (b : Int) + ((2 ^ (128 - p) : Nat) : Int), 1⟩
        = .done ((List.range (2 ^ (128 - p))).map (fun i => b + i)) := by
  have hpow : (1 : Nat) ≤ 2 ^ (128 - p) := Nat.one_le_two_pow
  have hbmax : (b : Int) ≤ (MAX_ADDR : Int) := by
    rw [max_addr_int]
    have : b ≤ 2 ^ 128 - 1 := by omega
    calc (b : Int) ≤ ((2 ^ 128 - 1 : Nat) : Int) := by exact_mod_cast this
    _ = 2 ^ 128 - 1 := by rw [← MAX_ADDR, max_addr_int]
  refine ⟨?_, ?_, ?_⟩
  · rw [Network.ofIntPair, fromInt_ok (b : Int) (by positivity) hbmax]
    rfl
  · rw [Network.iterNet, Network._max_idx]
    have hc : ((⟨b, (p : Int)⟩ : Network))._prefix_len ≤ 128 := by
      show (p : Int) ≤ 128
      exact_mod_cast hp
    rw [if_pos hc]
    show Except.ok (⟨(b : Int),
      (b : Int) + ((2 : Int) ^ (((128 : Int) - (p : Int)).toNat) - 1) + 1, 1⟩ : NetIter) = _
    have hstop2 : (b : Int) + ((2 : Int) ^ (((128 : Int) - (p : Int)).toNat) - 1) + 1
        = (b : Int) + ((2 ^ (128 - p) : Nat) : Int) := by
      have hexp : (((128 : Int) - (p : Int))).toNat = 128 - p := by omega
      rw [hexp]
      push_cast
      ring
    rw [hstop2]
  · have hrun := run_step_one (2 ^ (128 - p)) (b : Int) (by positivity)
      (by exact_mod_cast hb)
    rw [hrun]
    simp

/-- C5 (witness for the amended theorem): the network `0::/126` iterates to
exactly `[0, 1, 2, 3]`. -/
theorem C5_iteration_amended_witness :
    NetIter.run (2 ^ (128 - 126) + 1)
      ⟨((0 : Nat) : Int), ((0 : Nat) : Int) + ((2 ^ (128 - 126) : Nat) : Int), 1⟩
      = .done [0, 1, 2, 3] := by
  have h := (C5_iteration_amended 0 126 (by norm_num) (by norm_num)).2.2
  rw [h]
  decide

/-- C7: `Address` arithmetic does not wrap: for every in-range address
value `a` and integer `d`, `a + d` (resp. `a - d`) yields the address with
that value when it lies in `[0, 2^128-1]` and fails with `address out of
range` otherwise; in particular the two boundary cases fail. -/
theorem C7_arithmetic_no_wrap (a : Nat) (d : Int) (_ha : a ≤ MAX_ADDR) :
    (Address.addInt a d =
      if 0 ≤ (a : Int) + d ∧ (a : Int) + d ≤ (MAX_ADDR : Int)
      then .ok ((a : Int) + d).toNat else .error "address out of range")
    ∧ (Address.subInt a d =
      if 0 ≤ (a : Int) - d ∧ (a : Int) - d ≤ (MAX_ADDR : Int)
      then .ok ((a : Int) - d).toNat else .error "address out of range")
    ∧ Address.addInt MAX_ADDR 1 = .error "address out of range"
    ∧ Address.subInt 0 1 = .error "address out of range" := by
  refine ⟨rfl, rfl, by decide, by decide⟩

/-- C7 (witness): adding 3 to address 5 yields address 8. -/
theorem C7_arithmetic_no_wrap_witness : Address.addInt 5 3 = .ok 8 := by
  have h := (C7_arithmetic_no_wrap 5 3 (by decide)).1
  rw [h]
  decide

/-- C8: the claim says constructing a network with a prefix length outside
`0..128` does not succeed.  The constructor performs no check at all:
`Network(0, 200)` and `Network(0, -5)` both succeed. -/
theorem C8_prefix_unchecked :
    Network.ofIntPair 0 200 = .ok ⟨0, 200⟩
    ∧ Network.ofIntPair 0 (-5) = .ok ⟨0, -5⟩ := by
  refine ⟨by decide, by decide⟩

/-- C10: the parser puts no bound on the number of hextets after a `::`:
the 9-hextet input `"::0:1:2:3:4:5:6:7:8"` is accepted, the post-elision
hextets being packed into the low bits of the value. -/
theorem C10_nine_hextets :
    Address.fromString "::0:1:2:3:4:5:6:7:8"
      = .ok 0x00010002000300040005000600070008
    ∧ (tokenize "::0:1:2:3:4:5:6:7:8".toList).countP
        (fun t => match t with | .num _ => true | _ => false) = 9 := by
  refine ⟨by decide, by decide⟩


/-- C6: for every string that is a valid canonical-form rendering (i.e. the
zero-run-compressed, leading-zero-trimmed, lower-case output of the short
formatter on some in-range address value), parsing it back and formatting
the result in short mode yields the same string. -/
theorem C6_canonical_round_trip (str : String)
    (hcanon : ∃ a, a ≤ MAX_ADDR ∧ formatShort a = str) :
    ∃ v, Address.fromString str = .ok v ∧ formatShort v = str := by
  obtain ⟨a, ha, rfl⟩ := hcanon
  exact ⟨a, roundTrip a ha, rfl⟩

/-- C6 (witness): the canonical string `"::"` parses to the all-zero address
and formats back to `"::"`. -/
theorem C6_canonical_round_trip_witness :
    ∃ v, Address.fromString "::" = .ok v ∧ formatShort v = "::" :=
  C6_canonical_round_trip "::" ⟨0, by decide, by decide⟩


/-! ## Exact characterization of the scan for isolated zeros -/

theorem scanStep_keep_pos (W : Int → Int) (h0 idx : Int) (st : ScanSt)
    (HnoAdj : ∀ j : Int, W j = 0 → W (j + 1) ≠ 0)
    (hinv : ScanInv W h0 idx st)
    (hl : st.longest = some (0, 0)) (hll : st.longest_len = 0) :
    (scanStepFn h0 idx (W idx) st).longest = some (0, 0)
    ∧ (scanStepFn h0 idx (W idx) st).longest_len = 0 := by
  rw [scanStepFn]
  by_cases hC : W idx = st.prev ∨ (st.first ∧ W idx = h0)
  · rw [if_pos hC]
    exact ⟨hl, hll⟩
  · rw [if_neg hC]
    have hrec : ¬(st.prev = 0 ∧ st.cur_end - st.cur_start > st.longest_len) := by
      rintro ⟨hprev0, hlen⟩
      rw [hll] at hlen
      obtain ⟨hi1, hprevW, hics0, hics, hice, hreal, hrun, hifirst, hilong⟩ := hinv
      have hlt : st.cur_start < st.cur_end := by omega
      obtain ⟨hend, _⟩ := hreal (le_of_lt hlt)
      have hz1 : W st.cur_start = 0 := by
        rw [hrun st.cur_start le_rfl (by omega), hprev0]
      have hz2 : W (st.cur_start + 1) = 0 := by
        rw [hrun (st.cur_start + 1) (by omega) (by omega), hprev0]
      exact HnoAdj st.cur_start hz1 hz2
    constructor
    · show (if st.prev = 0 ∧ st.cur_end - st.cur_start > st.longest_len then
          { st with longest := some (st.cur_start, st.cur_end),
                    longest_len := st.cur_end - st.cur_start }
        else st).longest = some (0, 0)
      rw [if_neg hrec]
      exact hl
    · show (if st.prev = 0 ∧ st.cur_end - st.cur_start > st.longest_len then
          { st with longest := some (st.cur_start, st.cur_end),
                    longest_len := st.cur_end - st.cur_start }
        else st).longest_len = 0
      rw [if_neg hrec]
      exact hll

theorem scanStep_keep_neg (W : Int → Int) (h0 idx : Int) (st : ScanSt)
    (HnoAdj : ∀ j : Int, W j = 0 → W (j + 1) ≠ 0) (HW0 : W 0 ≠ 0)
    (hinv : ScanInv W h0 idx st)
    (hl : st.longest = none ∨ ∃ p q, st.longest = some (p, q) ∧ q < p) :
    (scanStepFn h0 idx (W idx) st).longest = none
    ∨ ∃ p q, (scanStepFn h0 idx (W idx) st).longest = some (p, q) ∧ q < p := by
  rw [scanStepFn]
  by_cases hC : W idx = st.prev ∨ (st.first ∧ W idx = h0)
  · rw [if_pos hC]
    exact hl
  · rw [if_neg hC]
    by_cases hrec : st.prev = 0 ∧ st.cur_end - st.cur_start > st.longest_len
    · right
      refine ⟨st.cur_start, st.cur_end, ?_, ?_⟩
      · show (if st.prev = 0 ∧ st.cur_end - st.cur_start > st.longest_len then
            { st with longest := some (st.cur_start, st.cur_end),
                      longest_len := st.cur_end - st.cur_start }
          else st).longest = some (st.cur_start, st.cur_end)
        rw [if_pos hrec]
      · by_contra hge
        push_neg at hge
        obtain ⟨hi1, hprevW, hics0, hics, hice, hreal, hrun, hifirst, hilong⟩ := hinv
        obtain ⟨hend, hsing⟩ := hreal hge
        have hz0 : W st.cur_start = 0 := by
          rw [hrun st.cur_start le_rfl (by omega), hrec.1]
        rcases hsing with hzero | hltse
        · rw [hzero] at hz0
          exact HW0 hz0
        · have hz2 : W (st.cur_start + 1) = 0 := by
            rw [hrun (st.cur_start + 1) (by omega) (by omega), hrec.1]
          exact HnoAdj st.cur_start hz0 hz2
    · have hKeep : (if st.prev = 0 ∧ st.cur_end - st.cur_start > st.longest_len then
          { st with longest := some (st.cur_start, st.cur_end),
                    longest_len := st.cur_end - st.cur_start }
        else st).longest = st.longest := by
        rw [if_neg hrec]
      rcases hl with hnone | ⟨p, q, hsome, hqp⟩
      · left
        show (if st.prev = 0 ∧ st.cur_end - st.cur_start > st.longest_len then
            { st with longest := some (st.cur_start, st.cur_end),
                      longest_len := st.cur_end - st.cur_start }
          else st).longest = none
        rw [hKeep, hnone]
      · right
        refine ⟨p, q, ?_, hqp⟩
        show (if st.prev = 0 ∧ st.cur_end - st.cur_start > st.longest_len then
            { st with longest := some (st.cur_start, st.cur_end),
                      longest_len := st.cur_end - st.cur_start }
          else st).longest = some (p, q)
        rw [hKeep, hsome]

theorem scanLoop_exact_pos (W : Int → Int) (h0 : Int)
    (HnoAdj : ∀ j : Int, W j = 0 → W (j + 1) ≠ 0) :
    ∀ (vs : List Int) (idx : Int) (st : ScanSt),
    (∀ k : Nat, k < vs.length → vs.get? k = some (W (idx + k))) →
    ScanInv W h0 idx st →
    st.longest = some (0, 0) → st.longest_len = 0 →
    (scanLoop h0 idx vs st).longest = some (0, 0) := by
  intro vs
  induction vs with
  | nil =>
    intro idx st _ _ hl _
    simpa [scanLoop] using hl
  | cons v vs ih =>
    intro idx st hget hinv hl hll
    have hv : v = W idx := by
      have h := hget 0 (by simp)
      simpa using h
    rw [scanLoop_cons, hv]
    have hkeep := scanStep_keep_pos W h0 idx st HnoAdj hinv hl hll
    exact ih (idx + 1) _ (fun k hk => by
        have h := hget (k + 1) (by simp; omega)
        simp only [List.get?_cons_succ] at h
        rw [h]
        congr 2
        push_cast
        ring)
      (scanStep_inv W h0 idx st hinv) hkeep.1 hkeep.2

theorem scanLoop_exact_neg (W : Int → Int) (h0 : Int)
    (HnoAdj : ∀ j : Int, W j = 0 → W (j + 1) ≠ 0) (HW0 : W 0 ≠ 0) :
    ∀ (vs : List Int) (idx : Int) (st : ScanSt),
    (∀ k : Nat, k < vs.length → vs.get? k = some (W (idx + k))) →
    ScanInv W h0 idx st →
    (st.longest = none ∨ ∃ p q, st.longest = some (p, q) ∧ q < p) →
    ((scanLoop h0 idx vs st).longest = none
     ∨ ∃ p q, (scanLoop h0 idx vs st).longest = some (p, q) ∧ q < p) := by
  intro vs
  induction vs with
  | nil =>
    intro idx st _ _ hl
    simpa [scanLoop] using hl
  | cons v vs ih =>
    intro idx st hget hinv hl
    have hv : v = W idx := by
      have h := hget 0 (by simp)
      simpa using h
    rw [scanLoop_cons, hv]
    exact ih (idx + 1) _ (fun k hk => by
        have h := hget (k + 1) (by simp; omega)
        simp only [List.get?_cons_succ] at h
        rw [h]
        congr 2
        push_cast
        ring)
      (scanStep_inv W h0 idx st hinv)
      (scanStep_keep_neg W h0 idx st HnoAdj HW0 hinv hl)


theorem sentinel_get (hx : List Nat) (p : Nat) (hp : p ≤ hx.length) :
    ∀ k : Nat, k < ((hx.drop p).map Int.ofNat ++ [(-1 : Int)]).length →
      ((hx.drop p).map Int.ofNat ++ [(-1 : Int)]).get? k
        = some (hxVal hx ((p : Int) + (k : Int))) := by
  intro k hk
  by_cases hkd : k < (hx.drop p).length
  · rw [List.get?_append (by simpa using hkd), List.get?_map,
      List.get?_eq_get hkd]
    have hidx : p + k < hx.length := by
      rw [List.length_drop] at hkd
      omega
    have hg : (hx.drop p).get ⟨k, hkd⟩ = hx.get ⟨p + k, hidx⟩ :=
      (List.get_drop hx hidx).symm
    rw [hg]
    have hcast : ((p : Int) + (k : Int)) = ((p + k : Nat) : Int) := by
      push_cast
      ring
    rw [hcast, hxVal_getElem hx (p + k) hidx]
    rfl
  · have hke : k = (hx.drop p).length := by
      have hlt : k < (hx.drop p).length + 1 := by simpa using hk
      omega
    subst hke
    rw [List.get?_append_right (by simp)]
    simp only [List.length_map, Nat.sub_self, List.get?_cons_zero]
    congr 1
    rw [hxVal, if_neg (by simp only [List.length_drop]; omega)]

theorem scanStep_open_close (W : Int → Int) (h0 idx : Int) (st : ScanSt)
    (hprev : st.prev = 0) (hcs : st.cur_start = 0) (hce : st.cur_end = 0)
    (hll : st.longest_len = -99)
    (hvne : W idx ≠ 0) (hh0 : h0 = 0) :
    (scanStepFn h0 idx (W idx) st).longest = some (0, 0)
    ∧ (scanStepFn h0 idx (W idx) st).longest_len = 0 := by
  rw [scanStepFn]
  have hC : ¬(W idx = st.prev ∨ (st.first ∧ W idx = h0)) := by
    rintro (h | ⟨_, h⟩)
    · rw [hprev] at h
      exact hvne h
    · rw [hh0] at h
      exact hvne h
  rw [if_neg hC]
  have hrec : st.prev = 0 ∧ st.cur_end - st.cur_start > st.longest_len :=
    ⟨hprev, by rw [hcs, hce, hll]; norm_num⟩
  constructor
  · show (if st.prev = 0 ∧ st.cur_end - st.cur_start > st.longest_len then
        { st with longest := some (st.cur_start, st.cur_end),
                  longest_len := st.cur_end - st.cur_start }
      else st).longest = some (0, 0)
    rw [if_pos hrec]
    show some (st.cur_start, st.cur_end) = some (0, 0)
    rw [hcs, hce]
  · show (if st.prev = 0 ∧ st.cur_end - st.cur_start > st.longest_len then
        { st with longest := some (st.cur_start, st.cur_end),
                  longest_len := st.cur_end - st.cur_start }
      else st).longest_len = 0
    rw [if_pos hrec]
    show st.cur_end - st.cur_start = 0
    rw [hcs, hce]
    norm_num

theorem compressSection_exact (hx : List Nat) (h8 : hx.length = 8)
    (HnoAdj : ∀ j : Int, hxVal hx j = 0 → hxVal hx (j + 1) ≠ 0) :
    (hxVal hx 0 = 0 → compressSection hx = (0, 0))
    ∧ (hxVal hx 0 ≠ 0 → ∀ j : Int, 0 ≤ j →
        ¬((compressSection hx).1 ≤ j ∧ j ≤ (compressSection hx).2)) := by
  obtain ⟨a0, a1, rest, rfl⟩ : ∃ a0 a1 rest, hx = a0 :: a1 :: rest := by
    cases hx with
    | nil => simp at h8
    | cons a0 t =>
      cases t with
      | nil => simp at h8
      | cons a1 rest => exact ⟨a0, a1, rest, rfl⟩
  set W := hxVal (a0 :: a1 :: rest) with hW
  have hlen : rest.length = 6 := by
    simp only [List.length_cons] at h8
    omega
  have hW0 : W 0 = Int.ofNat a0 := by
    rw [hW, hxVal, if_pos ⟨le_refl 0, by rw [h8]; norm_num⟩]
    rfl
  have hW1 : W 1 = Int.ofNat a1 := by
    rw [hW, hxVal, if_pos ⟨by norm_num, by rw [h8]; norm_num⟩]
    rfl
  have hstep1 : scanLoop (Int.ofNat a0) 0
      (Int.ofNat a0 :: Int.ofNat a1 :: (rest.map Int.ofNat ++ [(-1 : Int)]))
      ⟨none, -99, 0, 0, -1, true⟩
      = scanLoop (Int.ofNat a0) 1
          (Int.ofNat a1 :: (rest.map Int.ofNat ++ [(-1 : Int)]))
          ⟨none, -99, 0, 0, Int.ofNat a0, true⟩ := by
    rw [scanLoop_cons]
    congr 1
    rw [scanStepFn]
    rw [if_pos (Or.inr ⟨rfl, rfl⟩)]
  have hinv1 : ScanInv W (Int.ofNat a0) 1 ⟨none, -99, 0, 0, Int.ofNat a0, true⟩ := by
    refine ⟨le_refl 1, ?_, le_refl 0, by norm_num, by norm_num, ?_, ?_, ?_, rfl⟩
    · show Int.ofNat a0 = W (1 - 1)
      norm_num [hW0]
    · intro _
      exact ⟨by norm_num, Or.inl rfl⟩
    · intro j hj1 hj2
      have hj1b : (0 : Int) ≤ j := hj1
      have hj2b : j ≤ 1 - 1 := hj2
      have hj0 : j = 0 := by omega
      rw [hj0, hW0]
    · intro _
      exact ⟨rfl, hW0.symm⟩
  constructor
  · intro hz
    have ha0z : Int.ofNat a0 = 0 := by
      rw [← hW0]
      exact hz
    have hW1ne : W 1 ≠ 0 := by
      have h := HnoAdj 0 hz
      norm_num at h
      exact h
    show compressSection (a0 :: a1 :: rest) = (0, 0)
    rw [compressSection]
    simp only [List.headD_cons, List.map_cons, List.cons_append]
    rw [hstep1, scanLoop_cons, ← hW1]
    have hkeep := scanStep_open_close W (Int.ofNat a0) 1
      ⟨none, -99, 0, 0, Int.ofNat a0, true⟩ ha0z rfl rfl rfl hW1ne ha0z
    have hinv2 := scanStep_inv W (Int.ofNat a0) 1
      ⟨none, -99, 0, 0, Int.ofNat a0, true⟩ hinv1
    have hget2 : ∀ k : Nat, k < (rest.map Int.ofNat ++ [(-1 : Int)]).length →
        (rest.map Int.ofNat ++ [(-1 : Int)]).get? k = some (W (1 + 1 + (k : Int))) := by
      intro k hk
      have h : (rest.map Int.ofNat ++ [(-1 : Int)]).get? k
          = some (W (((2 : Nat) : Int) + (k : Int))) :=
        sentinel_get (a0 :: a1 :: rest) 2 (by rw [h8]; norm_num) k hk
      rw [h]
      norm_num
    have hfin := scanLoop_exact_pos W (Int.ofNat a0) HnoAdj
      (rest.map Int.ofNat ++ [(-1 : Int)]) (1 + 1) _ hget2 hinv2 hkeep.1 hkeep.2
    rw [hfin]
  · intro hz
    have hget1 : ∀ k : Nat, k < (Int.ofNat a1 :: (rest.map Int.ofNat ++ [(-1 : Int)])).length →
        (Int.ofNat a1 :: (rest.map Int.ofNat ++ [(-1 : Int)])).get? k
          = some (W (1 + (k : Int))) := by
      intro k hk
      have h : (Int.ofNat a1 :: (rest.map Int.ofNat ++ [(-1 : Int)])).get? k
          = some (W (((1 : Nat) : Int) + (k : Int))) :=
        sentinel_get (a0 :: a1 :: rest) 1 (by rw [h8]; norm_num) k hk
      rw [h]
      norm_num
    have hneg := scanLoop_exact_neg W (Int.ofNat a0) HnoAdj hz
      (Int.ofNat a1 :: (rest.map Int.ofNat ++ [(-1 : Int)])) 1
      ⟨none, -99, 0, 0, Int.ofNat a0, true⟩ hget1 hinv1 (Or.inl rfl)
    intro j hj hC
    rw [compressSection] at hC
    simp only [List.headD_cons, List.map_cons, List.cons_append] at hC
    rw [hstep1] at hC
    rcases hneg with hnone | ⟨p, q, hsome, hqp⟩
    · rw [hnone] at hC
      have hC2 : (-1 : Int) ≤ j ∧ j ≤ (-1 : Int) := hC
      omega
    · rw [hsome] at hC
      have hC2 : p ≤ j ∧ j ≤ q := hC
      omega

theorem hextetsOf_get (a i : Nat) (hi : i < 8)
    (h : i < (hextetsOf a).length) :
    (hextetsOf a).get ⟨i, h⟩ = hextet a i := by
  simp [hextetsOf, hextet, List.get_eq_getElem]

theorem hxVal_hextet (a i : Nat) (hi : i < 8) :
    hxVal (hextetsOf a) (i : Int) = ((hextet a i : Nat) : Int) := by
  have hlen : i < (hextetsOf a).length := by
    rw [hextetsOf_len]
    exact hi
  rw [hxVal_getElem (hextetsOf a) i hlen, hextetsOf_get a i hi hlen]


/-- C9: with no two adjacent zero hextets (so every zero run has length
exactly one), compress-mode elision depends on position: a single zero
hextet at index 0 is elided (rendering starts with `::`), while a single
zero hextet at any index greater than 0 is written out and no `::` appears
(the output is the plain colon-join of all eight trimmed hextets). -/
theorem C9_single_zero_elision (a : Nat)
    (hnadj : ∀ i : Nat, i ≤ 6 → ¬(hextet a i = 0 ∧ hextet a (i + 1) = 0)) :
    formatShort a =
      if hextet a 0 = 0
      then (':' :: ':' :: charJoin (((hextetsOf a).drop 1).map hexTrimChars)).asString
      else (charJoin ((hextetsOf a).map hexTrimChars)).asString := by
  have h8 := hextetsOf_len a
  have HnoAdj : ∀ j : Int, hxVal (hextetsOf a) j = 0 →
      hxVal (hextetsOf a) (j + 1) ≠ 0 := by
    intro j hj
    have hb := hxVal_zero_bounds _ _ hj
    rw [h8] at hb
    obtain ⟨hb0, hb8⟩ := hb
    set n := j.toNat with hn
    have hjn : j = (n : Int) := by omega
    by_cases h6 : n ≤ 6
    · have hz : hextet a n = 0 := by
        have h := hxVal_hextet a n (by omega)
        rw [hjn] at hj
        rw [h] at hj
        exact_mod_cast hj
      have hnz : hextet a (n + 1) ≠ 0 := fun hz2 => hnadj n h6 ⟨hz, hz2⟩
      have h2 := hxVal_hextet a (n + 1) (by omega)
      have hj1 : j + 1 = ((n + 1 : Nat) : Int) := by push_cast; omega
      rw [hj1, h2]
      intro hc
      exact hnz (by exact_mod_cast hc)
    · have hj7 : j + 1 = 8 := by omega
      rw [hj7, hxVal, if_neg (by rw [h8]; norm_num)]
      norm_num
  have hexact := compressSection_exact (hextetsOf a) h8 HnoAdj
  by_cases h0 : hextet a 0 = 0
  · rw [if_pos h0]
    have hW00 : hxVal (hextetsOf a) 0 = 0 := by
      have h := hxVal_hextet a 0 (by norm_num)
      rw [Nat.cast_zero] at h
      rw [h, h0]
      norm_num
    have hcs := hexact.1 hW00
    show ((renderLoop .TRIM (compressSection (hextetsOf a)) 0 (hextetsOf a)
        ([], false)).1).asString = _
    rw [hcs]
    rw [renderChars_elided .TRIM 0 0 (hextetsOf a) h8 le_rfl le_rfl (by norm_num),
      hexOf_trim]
    rfl
  · rw [if_neg h0]
    have hW00 : hxVal (hextetsOf a) 0 ≠ 0 := by
      have h := hxVal_hextet a 0 (by norm_num)
      rw [Nat.cast_zero] at h
      rw [h]
      intro hc
      exact h0 (by exact_mod_cast hc)
    have hout := hexact.2 hW00
    show ((renderLoop .TRIM (compressSection (hextetsOf a)) 0 (hextetsOf a)
        ([], false)).1).asString = _
    rw [renderChars_plain .TRIM _ (hextetsOf a) h8 (fun j hj1 _ => hout j hj1),
      hexOf_trim]

/-- The two concrete renderings of C9: hextets 0:1:2:3:4:5:6:7 compress to
`::1:2:3:4:5:6:7`, while hextets 1:2:3:0:5:6:7:8 render with the zero
written out and no `::`. -/
theorem C9_single_zero_elision_witness :
    formatShort 0x1000200030004000500060007 = "::1:2:3:4:5:6:7"
    ∧ formatShort 0x10002000300000005000600070008 = "1:2:3:0:5:6:7:8" := by
  constructor
  · have h := C9_single_zero_elision 0x1000200030004000500060007 (by decide)
    rw [h]
    decide
  · have h := C9_single_zero_elision 0x10002000300000005000600070008 (by decide)
    rw [h]
    decide

end Ipv6
